import Mathlib

/-!
Verification of the code-connection-visualizer core against its specification.

The development shallowly embeds the TypeScript sources:
* `SyntaxHighlighter` (tokenizer, language detection),
* `TextRenderer` (per-file character bounds index and its lookups),
* `CodeVisualizer` (selection normalization, bezier geometry, document
  removal, connection import/export),
* `PaneManager` (pane bookkeeping and tab hit-testing).

Text is modelled as `List Char`, pixel coordinates as `ℚ`, and JavaScript
array/object state as Lean lists and structures.  Fallible operations
return `Option`.
-/

namespace CodeViz

/-! ## Tokenizer (SyntaxHighlighter)

Embedding of `SyntaxHighlighter.tokenize`, `tokenizeGeneric` and
`detectLanguage`.  The per-language configuration mirrors
`initializeLanguages` (only `javascript`, `typescript` and `python` are
registered; every other language falls back to the generic tokenizer).
Display-only fields (`name`, `extensions`, `blockComment`, themes) are not
consumed by the embedded functions and are omitted.
-/

/-- The `SupportedLanguage` union type. -/
inductive SupportedLanguage where
  | javascript
  | typescript
  | python
  | java
  | cpp
  | c
  | devicetree
  | html
  | css
  | json
  | markdown
deriving DecidableEq, Repr

/-- The fields of `LanguageConfig` consumed by `tokenize`. -/
structure LanguageConfig where
  keywords : List (List Char)
  operators : List (List Char)
  brackets : List (List Char)
  lineComment : Option (List Char)
deriving DecidableEq, Repr

/-- JavaScript configuration from `initializeLanguages`. -/
def jsConfig : LanguageConfig where
  keywords := (["function", "const", "let", "var", "if", "else", "for",
    "while", "do", "break", "continue", "return", "class", "extends",
    "import", "export", "default", "try", "catch", "finally", "throw",
    "new", "this", "super", "static", "async", "await"]).map String.toList
  operators := (["+", "-", "*", "/", "%", "=", "==", "===", "!=", "!==",
    "<", ">", "<=", ">=", "&&", "||", "!", "?", ":", "=>"]).map String.toList
  brackets := (["(", ")", "[", "]", "\x7b", "\x7d"]).map String.toList
  lineComment := some ("//".toList)

/-- TypeScript configuration from `initializeLanguages`. -/
def tsConfig : LanguageConfig where
  keywords := (["function", "const", "let", "var", "if", "else", "for",
    "while", "do", "break", "continue", "return", "class", "extends",
    "import", "export", "default", "try", "catch", "finally", "throw",
    "new", "this", "super", "static", "async", "await", "interface",
    "type", "enum", "public", "private", "protected", "readonly"]).map String.toList
  operators := (["+", "-", "*", "/", "%", "=", "==", "===", "!=", "!==",
    "<", ">", "<=", ">=", "&&", "||", "!", "?", ":", "=>"]).map String.toList
  brackets := (["(", ")", "[", "]", "\x7b", "\x7d"]).map String.toList
  lineComment := some ("//".toList)

/-- Python configuration from `initializeLanguages`. -/
def pyConfig : LanguageConfig where
  keywords := (["def", "class", "if", "elif", "else", "for", "while",
    "break", "continue", "return", "import", "from", "as", "try",
    "except", "finally", "raise", "with", "lambda", "and", "or", "not",
    "in", "is", "None", "True", "False"]).map String.toList
  operators := (["+", "-", "*", "/", "//", "%", "**", "=", "==", "!=",
    "<", ">", "<=", ">=", "and", "or", "not"]).map String.toList
  brackets := (["(", ")", "[", "]", "\x7b", "\x7d"]).map String.toList
  lineComment := some ("#".toList)

/-- The `languages` map: which languages are registered with a config. -/
def languages : SupportedLanguage → Option LanguageConfig
  | .javascript => some jsConfig
  | .typescript => some tsConfig
  | .python => some pyConfig
  | _ => none

/-- The characters matched by the JavaScript regexp class `\s`. -/
def isJsWhitespace (c : Char) : Bool :=
  c = ' ' || c = '\t' || c = '\n' || c = '\x0b' || c = '\x0c' || c = '\r' ||
  c.toNat = 0xa0 || c.toNat = 0x1680 ||
  (0x2000 ≤ c.toNat && c.toNat ≤ 0x200a) ||
  c.toNat = 0x2028 || c.toNat = 0x2029 || c.toNat = 0x202f ||
  c.toNat = 0x205f || c.toNat = 0x3000 || c.toNat = 0xfeff

/-- The regexp class `\d` (code points 48–57, i.e. `'0' ≤ c ≤ '9'`). -/
def isDigitC (c : Char) : Bool := 48 ≤ c.toNat && c.toNat ≤ 57

/-- The regexp class `[a-zA-Z_$]` (identifier start). -/
def isIdentStart (c : Char) : Bool :=
  ('a' ≤ c && c ≤ 'z') || ('A' ≤ c && c ≤ 'Z') || c = '_' || c = '$'

/-- The regexp class `[a-zA-Z0-9_$]` (identifier continuation). -/
def isIdentCont (c : Char) : Bool := isIdentStart c || isDigitC c

/-- `pat.isPrefixOf s` on character lists (JavaScript `String.startsWith`). -/
def isPre : List Char → List Char → Bool
  | [], _ => true
  | _ :: _, [] => false
  | a :: as, b :: bs => a == b && isPre as bs

/-- JavaScript `String.includes`: `pat` occurs as a contiguous substring. -/
def hasSub (pat : List Char) : List Char → Bool
  | [] => isPre pat []
  | s@(_ :: rest) => isPre pat s || hasSub pat rest

/-- The backtick character (one of the three quote characters). -/
def backQuote : Char := Char.ofNat 96

/-- Matcher for the string-literal regexp body `(?:\\.|(?!\1)[^\\])*\1`
after the opening quote `q`: returns the consumed characters (closing
quote included), or `none` when the regexp fails (no same-quote
terminator).  The regexp is deterministic: at every position at most one
alternative applies, and a failed scan cannot be rescued by backtracking,
so this scanner is exact.  `\\.` requires `.` to match, which excludes
line terminators. -/
def strBody (q : Char) : List Char → Option (List Char)
  | [] => none
  | c :: cs =>
    if c = q then some [c]
    else if c = '\\' then
      match cs with
      | [] => none
      | d :: ds =>
        if d = '\n' || d = '\r' || d.toNat = 0x2028 || d.toNat = 0x2029 then
          none
        else (strBody q ds).map (fun r => c :: d :: r)
    else (strBody q cs).map (fun r => c :: r)

/-- The string-literal match `^(['"`])((?:\\.|(?!\1)[^\\])*)\1`. -/
def scanStr : List Char → Option (List Char)
  | [] => none
  | c :: cs =>
    if c = '\'' || c = '"' || c = backQuote then
      (strBody c cs).map (fun r => c :: r)
    else none

/-- The number match `^\d+\.?\d*`. -/
def scanNum (s : List Char) : Option (List Char) :=
  let ds := s.takeWhile isDigitC
  if ds.isEmpty then none
  else
    match s.drop ds.length with
    | '.' :: r2 => some (ds ++ '.' :: r2.takeWhile isDigitC)
    | _ => some ds

/-- The identifier match `^[a-zA-Z_$][a-zA-Z0-9_$]*`. -/
def scanIdent : List Char → Option (List Char)
  | [] => none
  | c :: cs =>
    if isIdentStart c then some (c :: cs.takeWhile isIdentCont) else none

/-- Stable insertion (descending length) used by `sortByLenDesc`. -/
def insLenDesc (x : List Char) : List (List Char) → List (List Char)
  | [] => [x]
  | y :: ys => if y.length ≤ x.length then x :: y :: ys else y :: insLenDesc x ys

/-- JavaScript `Array.sort((a, b) => b.length - a.length)`: a stable sort
by descending length. -/
def sortByLenDesc : List (List Char) → List (List Char)
  | [] => []
  | x :: xs => insLenDesc x (sortByLenDesc xs)

/-- First operator/bracket of `ops` that prefixes `rem` (the `for…of` loop
over the sorted operator list).  The emptiness guard only rules out the
degenerate empty operator, on which the source loop would not advance;
none of the configured operators is empty. -/
def opMatch (ops : List (List Char)) (rem : List Char) : Option (List Char) :=
  ops.find? (fun op => !op.isEmpty && isPre op rem)

/-- The `Token` record. -/
structure Token where
  type : String
  value : List Char
  startIndex : ℕ
  endIndex : ℕ
  line : ℕ
  column : ℕ
deriving DecidableEq, Repr

/-- One line of the `tokenize` scanning loop, fuelled.  The fuel is only
a structural-recursion device: every iteration consumes at least one
character, so the out-of-fuel clause is unreachable whenever
`rem.length ≤ fuel` (see `tokLineF_spec`). -/
def tokLineF (cfg : LanguageConfig) (lineIdx : ℕ) :
    ℕ → List Char → ℕ → ℕ → List Token × ℕ
  | _, [], _, g => ([], g)
  | 0, _ :: _, _, g => ([], g)
  | f + 1, rem@(c :: _), col, g =>
    let ws := rem.takeWhile isJsWhitespace
    if ws.isEmpty = false then
      tokLineF cfg lineIdx f (rem.drop ws.length) (col + ws.length) (g + ws.length)
    else if (match cfg.lineComment with
             | some lc => isPre lc rem
             | none => false) then
      ([⟨"comment", rem, g, g + rem.length, lineIdx, col⟩], g + rem.length)
    else
      match scanStr rem with
      | some v =>
        let r := tokLineF cfg lineIdx f (rem.drop v.length) (col + v.length) (g + v.length)
        (⟨"string", v, g, g + v.length, lineIdx, col⟩ :: r.1, r.2)
      | none =>
        match scanNum rem with
        | some v =>
          let r := tokLineF cfg lineIdx f (rem.drop v.length) (col + v.length) (g + v.length)
          (⟨"number", v, g, g + v.length, lineIdx, col⟩ :: r.1, r.2)
        | none =>
          match scanIdent rem with
          | some v =>
            let ty := if cfg.keywords.contains v then "keyword" else "identifier"
            let r := tokLineF cfg lineIdx f (rem.drop v.length) (col + v.length) (g + v.length)
            (⟨ty, v, g, g + v.length, lineIdx, col⟩ :: r.1, r.2)
          | none =>
            match opMatch (sortByLenDesc (cfg.operators ++ cfg.brackets)) rem with
            | some op =>
              let ty := if cfg.brackets.contains op then "bracket" else "operator"
              let r := tokLineF cfg lineIdx f (rem.drop op.length) (col + op.length) (g + op.length)
              (⟨ty, op, g, g + op.length, lineIdx, col⟩ :: r.1, r.2)
            | none =>
              let r := tokLineF cfg lineIdx f (rem.drop 1) (col + 1) (g + 1)
              (⟨"default", [c], g, g + 1, lineIdx, col⟩ :: r.1, r.2)

/-- One line of `tokenize`, starting at column 0 irrelevant — the column
argument is threaded explicitly. -/
def tokLine (cfg : LanguageConfig) (lineIdx : ℕ) (rem : List Char)
    (col g : ℕ) : List Token × ℕ :=
  tokLineF cfg lineIdx rem.length rem col g

/-- The per-line loop of `tokenize`, threading `globalIndex` (+1 per
newline). -/
def tokLines (cfg : LanguageConfig) : List (List Char) → ℕ → ℕ → List Token
  | [], _, _ => []
  | l :: ls, lineIdx, g =>
    let r := tokLine cfg lineIdx l 0 g
    r.1 ++ tokLines cfg ls (lineIdx + 1) (r.2 + 1)

/-- JavaScript `code.split('\n')`: the result is always nonempty and has
one entry per newline-separated segment. -/
def splitNl : List Char → List (List Char)
  | [] => [[]]
  | c :: cs =>
    if c = '\n' then [] :: splitNl cs
    else
      match splitNl cs with
      | [] => [[c]]
      | l :: ls => (c :: l) :: ls

/-- `SyntaxHighlighter.tokenizeGeneric`: one `default` token per
character. -/
def tokenizeGenericLines : List (List Char) → ℕ → ℕ → List Token
  | [], _, _ => []
  | l :: ls, lineIdx, g =>
    (l.enum.map (fun p => (⟨"default", [p.2], g + p.1, g + p.1 + 1, lineIdx, p.1⟩ : Token)))
      ++ tokenizeGenericLines ls (lineIdx + 1) (g + l.length + 1)

/-- `SyntaxHighlighter.tokenizeGeneric`. -/
def tokenizeGeneric (code : List Char) : List Token :=
  tokenizeGenericLines (splitNl code) 0 0

/-- `SyntaxHighlighter.tokenize`. -/
def tokenize (code : List Char) (language : SupportedLanguage) : List Token :=
  match languages language with
  | none => tokenizeGeneric code
  | some cfg => tokLines cfg (splitNl code) 0 0

/-- `SyntaxHighlighter.detectLanguage`. -/
def detectLanguage (code : List Char) (hint : Option SupportedLanguage) :
    SupportedLanguage :=
  match hint with
  | some h =>
    if (languages h).isSome then h else detectLanguageBody code
  | none => detectLanguageBody code
where
  detectLanguageBody (code : List Char) : SupportedLanguage :=
    if hasSub ("function".toList) code &&
        (hasSub ("const".toList) code || hasSub ("let".toList) code) then
      if hasSub ("interface".toList) code || hasSub (": string".toList) code ||
          hasSub (": number".toList) code then
        .typescript
      else .javascript
    else if hasSub ("def ".toList) code && hasSub (":".toList) code then
      .python
    else .javascript

/-- Claim C8: with no language hint, `detectLanguage` classifies
`"function f(){ const x = 1; }"` as JavaScript and
`"def f():\n    return 1"` as Python. -/
theorem detectLanguage_examples :
    detectLanguage ("function f()\x7b const x = 1; \x7d".toList) none =
      SupportedLanguage.javascript ∧
    detectLanguage ("def f():\n    return 1".toList) none =
      SupportedLanguage.python := by
  constructor <;> decide

/-! ### Token stream invariants (offset consistency, claim C10) -/

/-- A token's offsets are internally consistent and it is nonempty. -/
def TokOk (t : Token) : Prop :=
  t.endIndex = t.startIndex + t.value.length ∧ 1 ≤ t.value.length

/-- Invariant of one line-scan result relative to the incoming global
index `g`. -/
def LineOut (g : ℕ) (res : List Token × ℕ) : Prop :=
  g ≤ res.2 ∧
  (∀ t ∈ res.1, TokOk t ∧ g ≤ t.startIndex ∧ t.startIndex < res.2) ∧
  res.1.Pairwise (fun a b => a.startIndex < b.startIndex)

theorem lineOut_nil (g : ℕ) : LineOut g ([], g) := by
  refine ⟨le_refl g, ?_, List.Pairwise.nil⟩
  intro t ht
  cases ht

theorem lineOut_mono {g g₂ : ℕ} {res : List Token × ℕ} (h : g ≤ g₂)
    (hres : LineOut g₂ res) : LineOut g res := by
  obtain ⟨h1, h2, h3⟩ := hres
  exact ⟨le_trans h h1, fun t ht => ⟨(h2 t ht).1, le_trans h (h2 t ht).2.1,
    (h2 t ht).2.2⟩, h3⟩

theorem lineOut_cons {g : ℕ} {v : List Char} (ty : String) (li col : ℕ)
    {res : List Token × ℕ} (hlen : 1 ≤ v.length)
    (hres : LineOut (g + v.length) res) :
    LineOut g ((⟨ty, v, g, g + v.length, li, col⟩ : Token) :: res.1, res.2) := by
  obtain ⟨h1, h2, h3⟩ := hres
  refine ⟨le_trans (Nat.le_add_right g v.length) h1, ?_, ?_⟩
  · intro t ht
    rcases List.mem_cons.mp ht with rfl | hmem
    · exact ⟨⟨rfl, hlen⟩, le_refl g, lt_of_lt_of_le (Nat.lt_add_of_pos_right hlen) h1⟩
    · exact ⟨(h2 t hmem).1, le_trans (Nat.le_add_right g v.length) (h2 t hmem).2.1,
        (h2 t hmem).2.2⟩
  · refine List.Pairwise.cons ?_ h3
    intro t hmem
    exact lt_of_lt_of_le (Nat.lt_add_of_pos_right hlen) (h2 t hmem).2.1

theorem lineOut_comment (g li col : ℕ) {rem : List Char}
    (hlen : 1 ≤ rem.length) :
    LineOut g ([(⟨"comment", rem, g, g + rem.length, li, col⟩ : Token)],
      g + rem.length) := by
  refine ⟨Nat.le_add_right g rem.length, ?_, List.pairwise_singleton _ _⟩
  intro t ht
  rcases List.mem_singleton.mp ht with rfl
  exact ⟨⟨rfl, hlen⟩, le_refl g, Nat.lt_add_of_pos_right hlen⟩

theorem scanStr_len {s v : List Char} (h : scanStr s = some v) :
    1 ≤ v.length := by
  match s with
  | [] => simp [scanStr] at h
  | c :: cs =>
    simp only [scanStr] at h
    split at h
    · rcases Option.map_eq_some'.mp h with ⟨r, _, rfl⟩
      simp
    · cases h

theorem scanNum_len {s v : List Char} (h : scanNum s = some v) :
    1 ≤ v.length := by
  simp only [scanNum] at h
  split at h
  · cases h
  · rename_i hne
    split at h <;> (injection h with h; subst h)
    · have : s.takeWhile isDigitC ≠ [] := by
        intro hcon
        simp [hcon] at hne
      simp only [List.length_append]
      have := List.length_pos.mpr this
      omega
    · exact List.length_pos.mpr (fun hcon => by simp [hcon] at hne)

theorem scanIdent_len {s v : List Char} (h : scanIdent s = some v) :
    1 ≤ v.length := by
  match s with
  | [] => simp [scanIdent] at h
  | c :: cs =>
    simp only [scanIdent] at h
    split at h
    · injection h with h
      subst h
      simp
    · cases h

theorem opMatch_len {ops : List (List Char)} {rem op : List Char}
    (h : opMatch ops rem = some op) : 1 ≤ op.length := by
  have hp := List.find?_some h
  have : !op.isEmpty := by
    cases hb : (!op.isEmpty && isPre op rem) <;> rw [hb] at hp
    · cases hp
    · exact (Bool.and_eq_true _ _ |>.mp hb).1
  cases op with
  | nil => simp at this
  | cons a as => simp

/-- The line scanner satisfies the offset invariant for every fuel value:
all emitted tokens have consistent offsets, start at or after the
incoming global index, and are strictly increasing; the returned global
index bounds them strictly from above. -/
theorem tokLineF_spec (cfg : LanguageConfig) (lineIdx : ℕ) :
    ∀ (f : ℕ) (rem : List Char) (col g : ℕ),
      LineOut g (tokLineF cfg lineIdx f rem col g) := by
  intro f
  induction f with
  | zero =>
    intro rem col g
    cases rem <;> exact lineOut_nil g
  | succ f ih =>
    intro rem col g
    cases rem with
    | nil => exact lineOut_nil g
    | cons c cs =>
      rw [tokLineF]
      split
      · rename_i hws
        refine lineOut_mono (Nat.le_add_right _ _) (ih _ _ _)
      · split
        · refine lineOut_comment g lineIdx col (by simp)
        · split
          · rename_i v hv
            exact lineOut_cons _ lineIdx col (scanStr_len hv)
              (lineOut_mono (le_refl _) (ih _ _ _))
          · split
            · rename_i v hv
              exact lineOut_cons _ lineIdx col (scanNum_len hv) (ih _ _ _)
            · split
              · rename_i v hv
                exact lineOut_cons _ lineIdx col (scanIdent_len hv) (ih _ _ _)
              · split
                · rename_i op hop
                  exact lineOut_cons _ lineIdx col (opMatch_len hop) (ih _ _ _)
                · exact lineOut_cons _ lineIdx col (le_refl 1) (ih _ _ _)

/-- Invariant of a finished token stream relative to the incoming global
index. -/
def TokensOk (g : ℕ) (ts : List Token) : Prop :=
  (∀ t ∈ ts, TokOk t ∧ g ≤ t.startIndex) ∧
  ts.Pairwise (fun a b => a.startIndex < b.startIndex)

theorem tokLines_spec (cfg : LanguageConfig) :
    ∀ (ls : List (List Char)) (lineIdx g : ℕ),
      TokensOk g (tokLines cfg ls lineIdx g) := by
  intro ls
  induction ls with
  | nil =>
    intro lineIdx g
    exact ⟨fun t ht => absurd ht (List.not_mem_nil t), List.Pairwise.nil⟩
  | cons l ls ih =>
    intro lineIdx g
    obtain ⟨hle, hmem, hpw⟩ :
        LineOut g (tokLine cfg lineIdx l 0 g) :=
      tokLineF_spec cfg lineIdx l.length l 0 g
    obtain ⟨hmem', hpw'⟩ := ih (lineIdx + 1) ((tokLine cfg lineIdx l 0 g).2 + 1)
    simp only [tokLines]
    constructor
    · intro t ht
      rcases List.mem_append.mp ht with h | h
      · exact ⟨(hmem t h).1, (hmem t h).2.1⟩
      · have := hmem' t h
        exact ⟨this.1, le_trans (le_trans hle (Nat.le_succ _)) this.2⟩
    · rw [List.pairwise_append]
      refine ⟨hpw, hpw', ?_⟩
      intro a ha b hb
      have h1 := (hmem a ha).2.2
      have h2 := (hmem' b hb).2
      omega

/-- Claim C10: for a known language, every token of `tokenize` satisfies
`endIndex = startIndex + value.length` with a nonempty value, and the
token stream is strictly increasing in `startIndex`. -/
theorem tokenize_offset_invariants (code : List Char)
    (lang : SupportedLanguage) (cfg : LanguageConfig)
    (h : languages lang = some cfg) :
    (∀ t ∈ tokenize code lang,
      t.endIndex = t.startIndex + t.value.length ∧ 1 ≤ t.value.length) ∧
    (tokenize code lang).Pairwise (fun a b => a.startIndex < b.startIndex) := by
  unfold tokenize
  rw [h]
  obtain ⟨hmem, hpw⟩ := tokLines_spec cfg (splitNl code) 0 0
  exact ⟨fun t ht => (hmem t ht).1, hpw⟩

/-- Witness for C10 at the JavaScript input `"a+1"`. -/
theorem tokenize_offset_invariants_witness :
    languages SupportedLanguage.javascript = some jsConfig ∧
    ((∀ t ∈ tokenize ("a+1".toList) SupportedLanguage.javascript,
        t.endIndex = t.startIndex + t.value.length ∧ 1 ≤ t.value.length) ∧
      (tokenize ("a+1".toList) SupportedLanguage.javascript).Pairwise
        (fun a b => a.startIndex < b.startIndex)) :=
  ⟨rfl, tokenize_offset_invariants ("a+1".toList) SupportedLanguage.javascript
    jsConfig rfl⟩

/-! ### Unterminated string literals (claim C6) -/

theorem mem_insLenDesc {a x : List Char} {l : List (List Char)} :
    a ∈ insLenDesc x l ↔ a = x ∨ a ∈ l := by
  induction l with
  | nil => simp [insLenDesc]
  | cons y ys ih =>
    simp only [insLenDesc]
    split
    · simp
    · simp only [List.mem_cons, ih]
      tauto

theorem mem_sortByLenDesc {a : List Char} {l : List (List Char)} :
    a ∈ sortByLenDesc l ↔ a ∈ l := by
  induction l with
  | nil => simp [sortByLenDesc]
  | cons x xs ih => simp [sortByLenDesc, mem_insLenDesc, ih]

theorem opMatch_none {ops : List (List Char)} {q : Char} {cs : List Char}
    (h : ∀ op ∈ ops, op.head? ≠ some q) : opMatch ops (q :: cs) = none := by
  unfold opMatch
  rw [List.find?_eq_none]
  intro op hop
  have hh := h op hop
  cases op with
  | nil => simp
  | cons a as =>
    have hne : a ≠ q := by
      intro hc
      exact hh (by simp [hc])
    simp [isPre, hne]

/-- Claim C6, counterexample: the JavaScript line `'ab` contains an
opening quote with no same-quote terminator, yet `tokenize` does not
emit a string token covering the quote and the rest of the line — the
quote becomes a single-character `default` token and scanning continues
with the identifier `ab`. -/
theorem unterminated_string_counterexample :
    strBody '\'' ("ab".toList) = none ∧
    tokenize ("'ab".toList) SupportedLanguage.javascript =
      [⟨"default", ['\''], 0, 1, 0, 0⟩,
       ⟨"identifier", ['a', 'b'], 1, 3, 0, 1⟩] ∧
    ∀ t ∈ tokenize ("'ab".toList) SupportedLanguage.javascript,
      t.type ≠ "string" := by
  refine ⟨by decide, by decide, by decide⟩

/-- Core of the amended C6: when a quote character opens with no
same-quote terminator on the line, and the language's comment marker and
operators cannot match at the quote, the scanner emits the quote as a
single-character `default` token and continues after it. -/
theorem tokLine_unterminated (cfg : LanguageConfig) (q : Char)
    (hq : q = '\'' ∨ q = '"' ∨ q = backQuote)
    (hcm : cfg.lineComment.all
      (fun lc => !lc.isEmpty && lc.head? != some q) = true)
    (hop : (cfg.operators ++ cfg.brackets).all
      (fun op => op.head? != some q) = true)
    (cs : List Char) (hterm : strBody q cs = none) (li col g : ℕ) :
    tokLine cfg li (q :: cs) col g =
      ((⟨"default", [q], g, g + 1, li, col⟩ : Token) ::
        (tokLine cfg li cs (col + 1) (g + 1)).1,
       (tokLine cfg li cs (col + 1) (g + 1)).2) := by
  have hws : isJsWhitespace q = false := by
    rcases hq with rfl | rfl | rfl <;> decide
  have hqd : isDigitC q = false := by
    rcases hq with rfl | rfl | rfl <;> decide
  have hqi : isIdentStart q = false := by
    rcases hq with rfl | rfl | rfl <;> decide
  have hqt : (q = '\'' || q = '"' || q = backQuote) = true := by
    rcases hq with rfl | rfl | rfl <;> simp
  have hcomment : (match cfg.lineComment with
      | some lc => isPre lc (q :: cs)
      | none => false) = false := by
    cases hlc : cfg.lineComment with
    | none => rfl
    | some lc =>
      rw [hlc] at hcm
      have hp := hcm
      simp only [Option.all] at hp
      cases lc with
      | nil => simp at hp
      | cons c₀ rest =>
        have hne : c₀ ≠ q := by
          simp only [Bool.and_eq_true, bne_iff_ne, ne_eq, List.head?] at hp
          intro hc
          exact hp.2 (by rw [hc])
        simp [isPre, hne]
  have hstr : scanStr (q :: cs) = none := by
    simp [scanStr, hqt, hterm]
  have hnum : scanNum (q :: cs) = none := by
    simp [scanNum, List.takeWhile_cons, hqd]
  have hident : scanIdent (q :: cs) = none := by
    simp [scanIdent, hqi]
  have hops : opMatch (sortByLenDesc (cfg.operators ++ cfg.brackets))
      (q :: cs) = none := by
    refine opMatch_none ?_
    intro op hmem
    have := List.all_eq_true.mp hop op (mem_sortByLenDesc.mp hmem)
    exact bne_iff_ne.mp this
  unfold tokLine
  simp only [List.length_cons]
  rw [tokLineF]
  simp only [List.takeWhile_cons, hws, Bool.false_eq_true, if_false,
    List.isEmpty_nil, hcomment, hstr, hnum, hident, hops, List.drop_succ_cons,
    List.drop_zero, if_true]
  rw [if_neg (by simp : ¬(true = false))]

/-- Claim C6 (amended): for every registered language, a quote character
with no matching same-quote terminator on the rest of the line is
emitted as a single-character `default` token (not as a string token to
end of line), and tokenization continues with the character after the
quote. -/
theorem tokenize_unterminated_string_amended (lang : SupportedLanguage)
    (cfg : LanguageConfig) (h : languages lang = some cfg) (q : Char)
    (hq : q = '\'' ∨ q = '"' ∨ q = backQuote) (cs : List Char)
    (hterm : strBody q cs = none) (li col g : ℕ) :
    tokLine cfg li (q :: cs) col g =
      ((⟨"default", [q], g, g + 1, li, col⟩ : Token) ::
        (tokLine cfg li cs (col + 1) (g + 1)).1,
       (tokLine cfg li cs (col + 1) (g + 1)).2) := by
  cases lang <;> simp only [languages, Option.some.injEq] at h <;>
    try exact absurd h (by simp)
  all_goals subst h
  all_goals refine tokLine_unterminated _ q hq ?_ ?_ cs hterm li col g
  all_goals rcases hq with rfl | rfl | rfl <;> decide

/-- Witness for the amended C6 at the JavaScript line `'ab`. -/
theorem tokenize_unterminated_string_amended_witness :
    tokLine jsConfig 0 ('\'' :: "ab".toList) 0 0 =
      ((⟨"default", ['\''], 0, 0 + 1, 0, 0⟩ : Token) ::
        (tokLine jsConfig 0 ("ab".toList) (0 + 1) (0 + 1)).1,
       (tokLine jsConfig 0 ("ab".toList) (0 + 1) (0 + 1)).2) :=
  tokenize_unterminated_string_amended SupportedLanguage.javascript jsConfig
    rfl '\'' (Or.inl rfl) ("ab".toList) (by decide) 0 0 0

/-! ## Selections (CodeVisualizer.updateSelection, claim C7) -/

/-- The `CharacterBounds` record of the renderer: a rendered character's
glyph, pixel rectangle and (line, column) indices. -/
structure CharacterBounds where
  char : Char
  x : ℚ
  y : ℚ
  width : ℚ
  height : ℚ
  charIndex : ℕ
  lineIndex : ℕ
deriving DecidableEq, Repr

/-- The `TextSelection` record. -/
structure TextSelection where
  startCharIndex : ℕ
  endCharIndex : ℕ
  startLine : ℕ
  endLine : ℕ
  fileId : Option String
deriving DecidableEq, Repr

/-- `CodeVisualizer.updateSelection`: normalize the drag endpoints
(`selectionStart`, `selectionEnd`, both `CharacterBounds`) into the
current selection. -/
def updateSelection (s e : CharacterBounds) (activeFileId : String) :
    TextSelection :=
  let startLine := min s.lineIndex e.lineIndex
  let endLine := max s.lineIndex e.lineIndex
  let chars : ℕ × ℕ :=
    if startLine = endLine then
      (min s.charIndex e.charIndex, max s.charIndex e.charIndex)
    else if s.lineIndex < e.lineIndex then
      (s.charIndex, e.charIndex)
    else
      (e.charIndex, s.charIndex)
  ⟨chars.1, chars.2, startLine, endLine, some activeFileId⟩

/-- Claim C7: every selection produced by `updateSelection` is
normalized — `startLine ≤ endLine` and the start position does not come
after the end position in reading order — and swapping the drag
direction yields the same selection. -/
theorem updateSelection_normalized (s e : CharacterBounds)
    (activeFileId : String) :
    (updateSelection s e activeFileId).startLine ≤
      (updateSelection s e activeFileId).endLine ∧
    ((updateSelection s e activeFileId).startLine <
        (updateSelection s e activeFileId).endLine ∨
      (updateSelection s e activeFileId).startCharIndex ≤
        (updateSelection s e activeFileId).endCharIndex) ∧
    updateSelection s e activeFileId = updateSelection e s activeFileId := by
  unfold updateSelection
  rcases Nat.lt_trichotomy s.lineIndex e.lineIndex with h | h | h
  · have hne : ¬ (min s.lineIndex e.lineIndex = max s.lineIndex e.lineIndex) := by
      rw [Nat.min_eq_left h.le, Nat.max_eq_right h.le]
      omega
    have hne' : ¬ (min e.lineIndex s.lineIndex = max e.lineIndex s.lineIndex) := by
      rw [Nat.min_eq_right h.le, Nat.max_eq_left h.le]
      omega
    have hlt' : ¬ e.lineIndex < s.lineIndex := by omega
    simp only [if_neg hne, if_pos h, if_neg hne', if_neg hlt']
    refine ⟨min_le_max, Or.inl ?_, ?_⟩
    · show min s.lineIndex e.lineIndex < max s.lineIndex e.lineIndex
      rw [Nat.min_eq_left h.le, Nat.max_eq_right h.le]
      exact h
    · simp [TextSelection.mk.injEq, Nat.min_comm, Nat.max_comm]
  · have h1 : min s.lineIndex e.lineIndex = max s.lineIndex e.lineIndex := by
      omega
    have h2 : min e.lineIndex s.lineIndex = max e.lineIndex s.lineIndex := by
      omega
    simp only [if_pos h1, if_pos h2]
    exact ⟨min_le_max, Or.inr min_le_max,
      by simp [TextSelection.mk.injEq, Nat.min_comm, Nat.max_comm]⟩
  · have hne : ¬ (min s.lineIndex e.lineIndex = max s.lineIndex e.lineIndex) := by
      rw [Nat.min_eq_right h.le, Nat.max_eq_left h.le]
      omega
    have hne' : ¬ (min e.lineIndex s.lineIndex = max e.lineIndex s.lineIndex) := by
      rw [Nat.min_eq_left h.le, Nat.max_eq_right h.le]
      omega
    have hlt : ¬ s.lineIndex < e.lineIndex := by omega
    simp only [if_neg hne, if_neg hlt, if_neg hne', if_pos h]
    refine ⟨min_le_max, Or.inl ?_, ?_⟩
    · show min s.lineIndex e.lineIndex < max s.lineIndex e.lineIndex
      rw [Nat.min_eq_right h.le, Nat.max_eq_left h.le]
      exact h
    · simp [TextSelection.mk.injEq, Nat.min_comm, Nat.max_comm]

/-! ## Connection curve geometry (claim C3) -/

/-- `CodeVisualizer.getBezierPoint`: the curve sampled by hit-testing. -/
def getBezierPoint (startX startY endX endY t : ℚ) : ℚ × ℚ :=
  let controlOffset := |endY - startY| * (1 / 2)
  let cp1x := startX + controlOffset
  let cp1y := startY
  let cp2x := endX - controlOffset
  let cp2y := endY
  let mt := 1 - t
  let mt2 := mt * mt
  let mt3 := mt2 * mt
  let t2 := t * t
  let t3 := t2 * t
  (mt3 * startX + 3 * mt2 * t * cp1x + 3 * mt * t2 * cp2x + t3 * endX,
   mt3 * startY + 3 * mt2 * t * cp1y + 3 * mt * t2 * cp2y + t3 * endY)

/-- The control points passed to `bezierCurveTo` by
`CodeVisualizer.renderConnectionLine`. -/
def renderConnectionControlPoints (startX startY endX endY : ℚ) :
    (ℚ × ℚ) × (ℚ × ℚ) :=
  let controlOffset := |endY - startY| * (1 / 2)
  ((startX + controlOffset, startY), (endX - controlOffset, endY))

/-- Modelled from the spec: the canvas `bezierCurveTo` primitive (a
browser builtin, not repository code) draws the standard cubic Bezier
curve of its start point and the three given points, in Bernstein form. -/
def canvasCubicBezier (p0 p1 p2 p3 : ℚ × ℚ) (t : ℚ) : ℚ × ℚ :=
  ((1 - t) ^ 3 * p0.1 + 3 * (1 - t) ^ 2 * t * p1.1 +
     3 * (1 - t) * t ^ 2 * p2.1 + t ^ 3 * p3.1,
   (1 - t) ^ 3 * p0.2 + 3 * (1 - t) ^ 2 * t * p1.2 +
     3 * (1 - t) * t ^ 2 * p2.2 + t ^ 3 * p3.2)

/-- Claim C3: for every pair of endpoint centroids and every parameter
`t`, the drawn curve (canvas cubic with `renderConnectionLine`'s control
points) and the hit-tested sample `getBezierPoint` coincide. -/
theorem drawn_curve_eq_hitTest_curve (startX startY endX endY t : ℚ) :
    getBezierPoint startX startY endX endY t =
      canvasCubicBezier (startX, startY)
        (renderConnectionControlPoints startX startY endX endY).1
        (renderConnectionControlPoints startX startY endX endY).2
        (endX, endY) t := by
  unfold getBezierPoint canvasCubicBezier renderConnectionControlPoints
  simp only [Prod.mk.injEq]
  constructor <;> ring

/-! ## Character-bounds renderer (TextRenderer, claim C1)

Embedding of `TextRenderer.renderFileText` (the bounds-index
computation; the painting side effects have no bearing on the index) and
of the two lookups `getCharacterAtInFile` / `getCharacterBoundsInFile`.
-/

/-- The `FileLayout` record. -/
structure FileLayout where
  id : String
  x : ℚ
  y : ℚ
  width : ℚ
  height : ℚ
  visible : Bool
deriving DecidableEq, Repr

/-- The fields of `CodeFile` consumed by `renderFileText` (content,
language and style grid only affect painting, not the bounds index). -/
structure CodeFile where
  id : String
  name : String
  lines : List (List Char)
deriving DecidableEq, Repr

/-- The metric fields of `RendererState` consumed by `renderFileText`. -/
structure RendererState where
  charWidth : ℚ
  lineHeight : ℚ
deriving DecidableEq, Repr

/-- JavaScript `Map.get`. -/
def assocGet {α : Type} (k : String) : List (String × α) → Option α
  | [] => none
  | (k', v) :: rest => if k' = k then some v else assocGet k rest

/-- JavaScript `Map.set`: replace in place, or append. -/
def assocSet {α : Type} (k : String) (v : α) :
    List (String × α) → List (String × α)
  | [] => [(k, v)]
  | (k', v') :: rest =>
    if k' = k then (k, v) :: rest else (k', v') :: assocSet k v rest

/-- The `TextRenderer` fields relevant to the per-file bounds index. -/
structure TextRenderer where
  state : RendererState
  fileBounds : List (String × List (List CharacterBounds))

/-- `visibleLines` of `renderFileText`:
`min(lines.length, floor(textHeight / lineHeight))`. -/
def visibleLinesN (st : RendererState) (cf : CodeFile)
    (layout : FileLayout) : ℕ :=
  (min (cf.lines.length : ℤ) ⌊(layout.height - 35) / st.lineHeight⌋).toNat

/-- `visibleChars` of `renderFileText` for one output line:
`min(line.length, floor(textWidth / charWidth))`. -/
def visibleCharsN (st : RendererState) (cf : CodeFile) (layout : FileLayout)
    (lineIndex : ℕ) : ℕ :=
  (min ((cf.lines.getD lineIndex []).length : ℤ)
    ⌊(layout.width - 20) / st.charWidth⌋).toNat

/-- The `CharacterBounds` record built by `renderFileText` for one
character cell: `x = layout.x + 10 + charIndex * charWidth`,
`y = layout.y + 25 + lineIndex * lineHeight`, extent one cell. -/
def cellBounds (st : RendererState) (cf : CodeFile) (layout : FileLayout)
    (lineIndex charIndex : ℕ) : CharacterBounds :=
  ⟨(cf.lines.getD lineIndex []).getD charIndex ' ',
   layout.x + 10 + (charIndex : ℚ) * st.charWidth,
   layout.y + 25 + (lineIndex : ℚ) * st.lineHeight,
   st.charWidth, st.lineHeight, charIndex, lineIndex⟩

/-- The bounds index built by one `renderFileText` pass. -/
def buildFileBounds (st : RendererState) (cf : CodeFile)
    (layout : FileLayout) : List (List CharacterBounds) :=
  (List.range (visibleLinesN st cf layout)).map (fun lineIndex =>
    (List.range (visibleCharsN st cf layout lineIndex)).map
      (cellBounds st cf layout lineIndex))

/-- `TextRenderer.renderFileText`, restricted to its effect on the
bounds index: the file's entry is replaced wholesale. -/
def renderFileText (tr : TextRenderer) (cf : CodeFile)
    (layout : FileLayout) : TextRenderer :=
  { tr with
    fileBounds :=
      assocSet cf.id (buildFileBounds tr.state cf layout) tr.fileBounds }

/-- The point-in-rectangle test of `getCharacterAtInFile`. -/
def containsPoint (b : CharacterBounds) (x y : ℚ) : Bool :=
  b.x ≤ x && x < b.x + b.width && b.y ≤ y && y < b.y + b.height

/-- The nested linear scan of `getCharacterAtInFile`: first rectangle
containing the point, in line-then-column order. -/
def findCharAt (x y : ℚ) : List (List CharacterBounds) → Option CharacterBounds
  | [] => none
  | line :: rest =>
    match line.find? (fun b => containsPoint b x y) with
    | some b => some b
    | none => findCharAt x y rest

/-- `TextRenderer.getCharacterAtInFile`. -/
def getCharacterAtInFile (tr : TextRenderer) (layout : FileLayout)
    (x y : ℚ) : Option CharacterBounds :=
  match assocGet layout.id tr.fileBounds with
  | none => none
  | some bounds => findCharAt x y bounds

/-- `TextRenderer.getCharacterBoundsInFile`. -/
def getCharacterBoundsInFile (tr : TextRenderer) (layout : FileLayout)
    (lineIndex charIndex : ℤ) : Option CharacterBounds :=
  match assocGet layout.id tr.fileBounds with
  | none => none
  | some bounds =>
    if lineIndex < 0 ∨ (bounds.length : ℤ) ≤ lineIndex then none
    else
      match bounds.get? lineIndex.toNat with
      | none => none
      | some row =>
        if charIndex < 0 ∨ (row.length : ℤ) ≤ charIndex then none
        else row.get? charIndex.toNat

theorem assocGet_assocSet_self {α : Type} (k : String) (v : α)
    (m : List (String × α)) : assocGet k (assocSet k v m) = some v := by
  induction m with
  | nil => simp [assocGet, assocSet]
  | cons p rest ih =>
    obtain ⟨k', v'⟩ := p
    simp only [assocSet]
    split
    · simp [assocGet]
    · rename_i hne
      simp only [assocGet, if_neg hne]
      exact ih

theorem findCharAt_mem {x y : ℚ} :
    ∀ {g : List (List CharacterBounds)} {b : CharacterBounds},
      findCharAt x y g = some b →
      (∃ row ∈ g, b ∈ row) ∧ containsPoint b x y = true := by
  intro g
  induction g with
  | nil => intro b h; cases h
  | cons row rest ih =>
    intro b h
    simp only [findCharAt] at h
    split at h
    · rename_i b' hfind
      injection h with h
      subst h
      refine ⟨⟨row, List.mem_cons_self _ _, List.mem_of_find?_eq_some hfind⟩, ?_⟩
      have hc := List.find?_some hfind
      simpa using hc
    · obtain ⟨⟨r, hr, hb⟩, hc⟩ := ih h
      exact ⟨⟨r, List.mem_cons_of_mem _ hr, hb⟩, hc⟩

theorem findCharAt_isSome {x y : ℚ} :
    ∀ {g : List (List CharacterBounds)},
      (∃ row ∈ g, ∃ bb ∈ row, containsPoint bb x y = true) →
      ∃ b', findCharAt x y g = some b' := by
  intro g
  induction g with
  | nil => rintro ⟨row, hrow, -⟩; cases hrow
  | cons row rest ih =>
    rintro ⟨r, hr, bb, hbb, hc⟩
    simp only [findCharAt]
    cases hfind : row.find? (fun b => containsPoint b x y) with
    | some b' => exact ⟨b', rfl⟩
    | none =>
      rcases List.mem_cons.mp hr with rfl | hr'
      · exact absurd (List.find?_eq_none.mp hfind bb hbb) (by simp [hc])
      · exact ih ⟨r, hr', bb, hbb, hc⟩

/-- The one-dimensional disjointness argument: two grid cells of pitch
`w > 0` can only contain the same half-cell-offset point if they are the
same cell. -/
theorem grid_cell_unique {w : ℚ} (hw : 0 < w) {a b : ℕ}
    (h1 : (a : ℚ) * w ≤ (b : ℚ) * w + w / 2)
    (h2 : (b : ℚ) * w + w / 2 < (a : ℚ) * w + w) : a = b := by
  rcases lt_trichotomy a b with hab | hab | hab
  · exfalso
    have hc : (a : ℚ) + 1 ≤ (b : ℚ) := by exact_mod_cast hab
    nlinarith [mul_le_mul_of_nonneg_right hc hw.le]
  · exact hab
  · exfalso
    have hc : (b : ℚ) + 1 ≤ (a : ℚ) := by exact_mod_cast hab
    nlinarith [mul_le_mul_of_nonneg_right hc hw.le]

theorem buildFileBounds_length (st : RendererState) (cf : CodeFile)
    (layout : FileLayout) :
    (buildFileBounds st cf layout).length = visibleLinesN st cf layout := by
  simp [buildFileBounds]

theorem buildFileBounds_get? (st : RendererState) (cf : CodeFile)
    (layout : FileLayout) {l : ℕ} (hl : l < visibleLinesN st cf layout) :
    (buildFileBounds st cf layout).get? l =
      some ((List.range (visibleCharsN st cf layout l)).map
        (cellBounds st cf layout l)) := by
  rw [List.get?_eq_getElem?]
  simp [buildFileBounds, List.getElem?_map, List.getElem?_range hl]

theorem mem_buildFileBounds {st : RendererState} {cf : CodeFile}
    {layout : FileLayout} {b' : CharacterBounds}
    (h : ∃ row ∈ buildFileBounds st cf layout, b' ∈ row) :
    ∃ l' c', l' < visibleLinesN st cf layout ∧
      c' < visibleCharsN st cf layout l' ∧
      b' = cellBounds st cf layout l' c' := by
  obtain ⟨row, hrow, hbmem⟩ := h
  simp only [buildFileBounds, List.mem_map, List.mem_range] at hrow
  obtain ⟨l', hl', rfl⟩ := hrow
  simp only [List.mem_map, List.mem_range] at hbmem
  obtain ⟨c', hc', rfl⟩ := hbmem
  exact ⟨l', c', hl', hc', rfl⟩

/-- Claim C1: on a freshly rendered document, looking up the rectangle
of any (line, column) present in the bounds index and then
reverse-looking-up the center of that rectangle returns a character with
the same `lineIndex` and `charIndex`. -/
theorem boundsOf_characterAt_roundtrip (tr : TextRenderer) (cf : CodeFile)
    (layout : FileLayout) (hw : 0 < tr.state.charWidth)
    (hh : 0 < tr.state.lineHeight) (hid : layout.id = cf.id)
    (lineIndex charIndex : ℤ) (b : CharacterBounds)
    (hb : getCharacterBoundsInFile (renderFileText tr cf layout) layout
      lineIndex charIndex = some b) :
    ∃ b', getCharacterAtInFile (renderFileText tr cf layout) layout
        (b.x + b.width / 2) (b.y + b.height / 2) = some b' ∧
      b'.lineIndex = b.lineIndex ∧ b'.charIndex = b.charIndex := by
  have hget : assocGet layout.id (renderFileText tr cf layout).fileBounds =
      some (buildFileBounds tr.state cf layout) := by
    show assocGet layout.id
      (assocSet cf.id (buildFileBounds tr.state cf layout) tr.fileBounds) =
      some (buildFileBounds tr.state cf layout)
    rw [hid]
    exact assocGet_assocSet_self cf.id _ tr.fileBounds
  simp only [getCharacterBoundsInFile, hget] at hb
  by_cases hL : lineIndex < 0 ∨
      ((buildFileBounds tr.state cf layout).length : ℤ) ≤ lineIndex
  · rw [if_pos hL] at hb
    cases hb
  rw [if_neg hL] at hb
  push_neg at hL
  obtain ⟨hL0, hLlt⟩ := hL
  have hln : lineIndex.toNat < visibleLinesN tr.state cf layout := by
    rw [← buildFileBounds_length tr.state cf layout]
    omega
  simp only [buildFileBounds_get? tr.state cf layout hln] at hb
  set row := (List.range (visibleCharsN tr.state cf layout lineIndex.toNat)).map
    (cellBounds tr.state cf layout lineIndex.toNat) with hrowdef
  by_cases hC : charIndex < 0 ∨ (row.length : ℤ) ≤ charIndex
  · rw [if_pos hC] at hb
    cases hb
  rw [if_neg hC] at hb
  push_neg at hC
  obtain ⟨hC0, hClt⟩ := hC
  have hrowlen : row.length = visibleCharsN tr.state cf layout lineIndex.toNat := by
    simp [hrowdef]
  have hcn : charIndex.toNat < visibleCharsN tr.state cf layout lineIndex.toNat := by
    have h2 := hClt
    rw [hrowlen] at h2
    omega
  have hbval : b = cellBounds tr.state cf layout lineIndex.toNat charIndex.toNat := by
    have hsome : row.get? charIndex.toNat =
        some (cellBounds tr.state cf layout lineIndex.toNat charIndex.toNat) := by
      rw [hrowdef, List.get?_eq_getElem?, List.getElem?_map,
        List.getElem?_range hcn]
      rfl
    rw [hsome] at hb
    exact (Option.some.inj hb).symm
  -- abbreviations for the cell geometry
  have hbx : b.x = layout.x + 10 + (charIndex.toNat : ℚ) * tr.state.charWidth := by
    rw [hbval]; rfl
  have hby : b.y = layout.y + 25 + (lineIndex.toNat : ℚ) * tr.state.lineHeight := by
    rw [hbval]; rfl
  have hbw : b.width = tr.state.charWidth := by rw [hbval]; rfl
  have hbh : b.height = tr.state.lineHeight := by rw [hbval]; rfl
  have hbl : b.lineIndex = lineIndex.toNat := by rw [hbval]; rfl
  have hbc : b.charIndex = charIndex.toNat := by rw [hbval]; rfl
  -- the center point lies in cell (lineIndex, charIndex) and in no other
  have hcontains : containsPoint b (b.x + b.width / 2) (b.y + b.height / 2) = true := by
    simp only [containsPoint, Bool.and_eq_true, decide_eq_true_eq]
    refine ⟨⟨⟨by linarith [hw, hbw], ?_⟩, by linarith [hh, hbh]⟩, ?_⟩
    · rw [hbw]; linarith
    · rw [hbh]; linarith
  have hmem : ∃ rw ∈ buildFileBounds tr.state cf layout, b ∈ rw := by
    refine ⟨row, ?_, ?_⟩
    · rw [hrowdef]
      simp only [buildFileBounds, List.mem_map, List.mem_range]
      exact ⟨lineIndex.toNat, hln, rfl⟩
    · rw [hrowdef, hbval]
      simp only [List.mem_map, List.mem_range]
      exact ⟨charIndex.toNat, hcn, rfl⟩
  simp only [getCharacterAtInFile, hget]
  obtain ⟨rowW, hrowW, hbrowW⟩ := hmem
  obtain ⟨b', hb'⟩ := findCharAt_isSome (x := b.x + b.width / 2)
    (y := b.y + b.height / 2) ⟨rowW, hrowW, b, hbrowW, hcontains⟩
  refine ⟨b', hb', ?_⟩
  obtain ⟨hbmem', hc'⟩ := findCharAt_mem hb'
  obtain ⟨l', c', hl', hc'n, rfl⟩ := mem_buildFileBounds hbmem'
  -- uniqueness of the containing cell
  simp only [containsPoint, Bool.and_eq_true, decide_eq_true_eq, cellBounds] at hc'
  obtain ⟨⟨⟨hx1, hx2⟩, hy1⟩, hy2⟩ := hc'
  have hceq : c' = charIndex.toNat := by
    refine grid_cell_unique hw ?_ ?_
    · rw [hbx, hbw] at hx1
      linarith
    · rw [hbx, hbw] at hx2
      linarith
  have hleq : l' = lineIndex.toNat := by
    refine grid_cell_unique hh ?_ ?_
    · rw [hby, hbh] at hy1
      linarith
    · rw [hby, hbh] at hy2
      linarith
  constructor
  · show l' = b.lineIndex
    rw [hbl, hleq]
  · show c' = b.charIndex
    rw [hbc, hceq]

/-- Witness for C1 on a concrete rendered two-character document. -/
theorem boundsOf_characterAt_roundtrip_witness :
    (0 : ℚ) < 5 ∧ (0 : ℚ) < 10 ∧
    getCharacterBoundsInFile
        (renderFileText ⟨⟨5, 10⟩, []⟩ ⟨"f", "f", [['a', 'b']]⟩
          ⟨"f", 0, 0, 100, 100, true⟩)
        ⟨"f", 0, 0, 100, 100, true⟩ 0 1 =
      some ⟨'b', 15, 25, 5, 10, 1, 0⟩ ∧
    ∃ b', getCharacterAtInFile
        (renderFileText ⟨⟨5, 10⟩, []⟩ ⟨"f", "f", [['a', 'b']]⟩
          ⟨"f", 0, 0, 100, 100, true⟩)
        ⟨"f", 0, 0, 100, 100, true⟩ (15 + 5 / 2) (25 + 10 / 2) = some b' ∧
      b'.lineIndex = 0 ∧ b'.charIndex = 1 := by
  have hb : getCharacterBoundsInFile
      (renderFileText ⟨⟨5, 10⟩, []⟩ ⟨"f", "f", [['a', 'b']]⟩
        ⟨"f", 0, 0, 100, 100, true⟩)
      ⟨"f", 0, 0, 100, 100, true⟩ 0 1 =
      some ⟨'b', 15, 25, 5, 10, 1, 0⟩ := by
    norm_num [getCharacterBoundsInFile, renderFileText, assocSet, assocGet,
      buildFileBounds, visibleLinesN, visibleCharsN, cellBounds,
      List.range_succ, CharacterBounds.mk.injEq]
  refine ⟨by norm_num, by norm_num, hb, ?_⟩
  exact boundsOf_characterAt_roundtrip ⟨⟨5, 10⟩, []⟩ ⟨"f", "f", [['a', 'b']]⟩
    ⟨"f", 0, 0, 100, 100, true⟩ (by norm_num) (by norm_num) rfl 0 1
    ⟨'b', 15, 25, 5, 10, 1, 0⟩ hb

/-! ## Pane management (PaneManager, claim C9) -/

/-- The `LayoutMode` union type. -/
inductive LayoutMode where
  | single
  | splitHorizontal
  | splitVertical
  | grid
  | auto
deriving DecidableEq, Repr

/-- The `EditorPane` record. -/
structure EditorPane where
  id : String
  fileId : Option String
  order : ℕ
  title : String
  isActive : Bool
deriving DecidableEq, Repr

/-- The `PaneLayout` record. -/
structure PaneLayout where
  paneId : String
  x : ℚ
  y : ℚ
  width : ℚ
  height : ℚ
  tabHeight : ℚ
deriving DecidableEq, Repr

/-- The `PaneManager` state.  The `panes` map is kept in insertion
order; `TAB_HEIGHT = 30` and `PANE_MARGIN = 5` are inlined. -/
structure PaneManager where
  panes : List EditorPane
  paneLayouts : List (String × PaneLayout)
  activePaneId : Option String
  layoutMode : LayoutMode
  canvasWidth : ℚ
  canvasHeight : ℚ
deriving DecidableEq, Repr

/-- Stable insertion (ascending `order`) used by `sortByOrder`. -/
def insOrder (x : EditorPane) : List EditorPane → List EditorPane
  | [] => [x]
  | y :: ys => if x.order < y.order then x :: y :: ys else y :: insOrder x ys

/-- JavaScript `Array.sort((a, b) => a.order - b.order)`: a stable sort
by ascending `order` (used by `getPanes` and the layout functions). -/
def sortByOrder : List EditorPane → List EditorPane
  | [] => []
  | x :: xs => insOrder x (sortByOrder xs)

/-- `PaneManager.setActivePane`. -/
def setActivePane (paneId : String) (pm : PaneManager) : Bool × PaneManager :=
  if pm.panes.any (fun p => p.id == paneId) then
    (true,
      { pm with
        panes := pm.panes.map (fun p => { p with isActive := p.id == paneId }),
        activePaneId := some paneId })
  else (false, pm)

/-- `PaneManager.reorderPanes`: each pane's `order` becomes its index in
the order-sorted array (in-place object mutation is modelled through the
pane id). -/
def reorderPanes (pm : PaneManager) : PaneManager :=
  let sorted := sortByOrder pm.panes
  { pm with
    panes := pm.panes.map (fun p =>
      { p with order := sorted.findIdx (fun q => q.id == p.id) }) }

/-- `Math.ceil(Math.sqrt(n))` on a natural count (exact for the pane
counts in range, where the float square root rounds faithfully). -/
def natSqrtCeil (n : ℕ) : ℕ :=
  if Nat.sqrt n * Nat.sqrt n = n then Nat.sqrt n else Nat.sqrt n + 1

/-- `PaneManager.calculateSingleLayout`. -/
def singleLayout (pm : PaneManager) (effH : ℚ) : List (String × PaneLayout) :=
  match pm.activePaneId with
  | none => []
  | some apid => [(apid, ⟨apid, 0, 30, pm.canvasWidth, effH, 30⟩)]

/-- `PaneManager.calculateHorizontalSplitLayout`. -/
def horizontalSplitLayout (pm : PaneManager) (panes : List EditorPane)
    (effH : ℚ) : List (String × PaneLayout) :=
  let paneHeight := effH / (panes.length : ℚ)
  panes.enum.map (fun pr =>
    (pr.2.id, ⟨pr.2.id, 0, 30 + paneHeight * (pr.1 : ℚ), pm.canvasWidth,
      paneHeight - 5, 30⟩))

/-- `PaneManager.calculateVerticalSplitLayout`. -/
def verticalSplitLayout (pm : PaneManager) (panes : List EditorPane)
    (effH : ℚ) : List (String × PaneLayout) :=
  let paneWidth := pm.canvasWidth / (panes.length : ℚ)
  panes.enum.map (fun pr =>
    (pr.2.id, ⟨pr.2.id, paneWidth * (pr.1 : ℚ), 30, paneWidth - 5, effH, 30⟩))

/-- `PaneManager.calculateGridLayout` (`cols = ceil(sqrt n)`,
`rows = ceil(n / cols)`). -/
def gridLayout (pm : PaneManager) (panes : List EditorPane) (effH : ℚ) :
    List (String × PaneLayout) :=
  let cols := natSqrtCeil panes.length
  let rows := (panes.length + cols - 1) / cols
  let paneWidth := pm.canvasWidth / (cols : ℚ)
  let paneHeight := effH / (rows : ℚ)
  panes.enum.map (fun pr =>
    (pr.2.id, ⟨pr.2.id, ((pr.1 % cols : ℕ) : ℚ) * paneWidth,
      30 + ((pr.1 / cols : ℕ) : ℚ) * paneHeight, paneWidth - 5,
      paneHeight - 5, 30⟩))

/-- `PaneManager.calculateLayouts`: replaces the layout map wholesale
(no-op when the canvas has no size). -/
def calculateLayouts (pm : PaneManager) : PaneManager :=
  if pm.canvasWidth = 0 ∨ pm.canvasHeight = 0 then pm
  else
    let paneArray := sortByOrder pm.panes
    if paneArray.isEmpty then { pm with paneLayouts := [] }
    else
      let effH := pm.canvasHeight - 30
      { pm with
        paneLayouts :=
          match pm.layoutMode with
          | .single => singleLayout pm effH
          | .splitHorizontal => horizontalSplitLayout pm paneArray effH
          | .splitVertical => verticalSplitLayout pm paneArray effH
          | .grid => gridLayout pm paneArray effH
          | .auto =>
            if paneArray.length = 1 then singleLayout pm effH
            else if paneArray.length = 2 then
              verticalSplitLayout pm paneArray effH
            else if paneArray.length ≤ 4 then gridLayout pm paneArray effH
            else verticalSplitLayout pm paneArray effH }

/-- `PaneManager.removePane`: refuses when the pane is unknown or is the
last remaining pane; otherwise deletes it, fixes the active pane,
reorders and recomputes layouts. -/
def removePane (paneId : String) (pm : PaneManager) : Bool × PaneManager :=
  if ¬ (pm.panes.any (fun p => p.id == paneId)) ∨ pm.panes.length ≤ 1 then
    (false, pm)
  else
    let pm1 := { pm with
      panes := pm.panes.filter (fun p => !(p.id == paneId)),
      paneLayouts := pm.paneLayouts.filter (fun kv => !(kv.1 == paneId)) }
    let pm2 :=
      if pm.activePaneId = some paneId then
        match pm1.panes with
        | [] => { pm1 with activePaneId := none }
        | p0 :: _ => (setActivePane p0.id pm1).2
      else pm1
    (true, calculateLayouts (reorderPanes pm2))

/-- The result record of `isPaneTabAt`. -/
structure TabHit where
  paneId : String
  isCloseButton : Bool
deriving DecidableEq, Repr

/-- The tab-scanning loop of `isPaneTabAt`, threading `currentX`;
`manyPanes` captures `panes.length > 1` of the full pane list. -/
def tabScan (x tabWidth : ℚ) (manyPanes : Bool) :
    List EditorPane → ℚ → Option TabHit
  | [], _ => none
  | p :: ps, currentX =>
    if currentX ≤ x ∧ x < currentX + tabWidth then
      let closeButtonX := currentX + tabWidth - 15
      some ⟨p.id, manyPanes && decide (closeButtonX - 10 < x) &&
        decide (x < closeButtonX + 10)⟩
    else tabScan x tabWidth manyPanes ps (currentX + tabWidth)

/-- `PaneManager.isPaneTabAt`. -/
def isPaneTabAt (x y : ℚ) (pm : PaneManager) : Option TabHit :=
  if 30 < y then none
  else
    let panes := sortByOrder pm.panes
    if panes.isEmpty then none
    else
      let tabWidth := min 150 (pm.canvasWidth / max 1 ((panes.length : ℚ)))
      tabScan x tabWidth (decide (1 < panes.length)) panes 0

theorem length_insOrder (x : EditorPane) (l : List EditorPane) :
    (insOrder x l).length = l.length + 1 := by
  induction l with
  | nil => rfl
  | cons y ys ih =>
    simp only [insOrder]
    split
    · simp
    · simp [ih]

theorem length_sortByOrder (l : List EditorPane) :
    (sortByOrder l).length = l.length := by
  induction l with
  | nil => rfl
  | cons x xs ih => simp [sortByOrder, length_insOrder, ih]

theorem tabScan_not_close (x tw : ℚ) :
    ∀ (ps : List EditorPane) (cx : ℚ) (hit : TabHit),
      tabScan x tw false ps cx = some hit → hit.isCloseButton = false := by
  intro ps
  induction ps with
  | nil => intro cx hit h; cases h
  | cons p ps ih =>
    intro cx hit h
    simp only [tabScan] at h
    split at h
    · injection h with h
      subst h
      simp
    · exact ih _ hit h

theorem tabScan_all_not_close (x tw : ℚ) (ps : List EditorPane) (cx : ℚ) :
    (tabScan x tw false ps cx).all (fun hit => !hit.isCloseButton) = true := by
  cases hres : tabScan x tw false ps cx with
  | none => rfl
  | some hit =>
    simp [Option.all, tabScan_not_close x tw ps cx hit hres]

/-- Claim C9: with exactly one pane, `removePane` returns `false` and
leaves the whole state (pane set, active pane, layouts) unchanged, and
no tab-strip click reports a close-button hit. -/
theorem removePane_refused_when_single (pm : PaneManager) (paneId : String)
    (x y : ℚ) (h : pm.panes.length = 1) :
    removePane paneId pm = (false, pm) ∧
    (isPaneTabAt x y pm).all (fun hit => !hit.isCloseButton) = true := by
  constructor
  · unfold removePane
    rw [if_pos (Or.inr (by omega))]
  · unfold isPaneTabAt
    by_cases h1 : 30 < y
    · rw [if_pos h1]
      rfl
    · rw [if_neg h1]
      have hl : (sortByOrder pm.panes).length = 1 := by
        rw [length_sortByOrder, h]
      have hne : (sortByOrder pm.panes).isEmpty = false := by
        cases hsp : sortByOrder pm.panes with
        | nil => rw [hsp] at hl; simp at hl
        | cons a l => rfl
      simp only [hne, Bool.false_eq_true, if_false, hl]
      rw [show decide ((1 : ℕ) < 1) = false from by decide]
      apply tabScan_all_not_close

/-- Witness for C9 on a concrete single-pane manager. -/
theorem removePane_refused_when_single_witness :
    removePane "p" (⟨[⟨"p", none, 0, "Welcome", true⟩], [], some "p",
        LayoutMode.auto, 800, 600⟩ : PaneManager) =
      (false, (⟨[⟨"p", none, 0, "Welcome", true⟩], [], some "p",
        LayoutMode.auto, 800, 600⟩ : PaneManager)) ∧
    (isPaneTabAt 5 5 (⟨[⟨"p", none, 0, "Welcome", true⟩], [], some "p",
        LayoutMode.auto, 800, 600⟩ : PaneManager)).all
      (fun hit => !hit.isCloseButton) = true :=
  removePane_refused_when_single _ "p" 5 5 rfl

/-! ## Document removal (CodeVisualizer.removeCodeFile, claim C2) -/

/-- The `LineStyle` union type. -/
inductive LineStyle where
  | solid
  | dotted
  | dashed
deriving DecidableEq, Repr

/-- The `ConnectionLine` record (`end'` embeds the source field `end`,
which is a reserved word in Lean). -/
structure ConnectionLine where
  id : String
  start : TextSelection
  end' : TextSelection
  color : String
  width : ℤ
  style : LineStyle
  label : Option String
deriving DecidableEq, Repr

/-- The `CodeVisualizer` fields touched by `removeCodeFile`.  The
`codeFiles` map is represented by its insertion-ordered key set (the
stored `CodeFile` values play no role in the removal invariant). -/
structure VisualizerState where
  codeFiles : List String
  fileLayouts : List (String × FileLayout)
  connectionLines : List ConnectionLine
  paneManager : PaneManager
deriving DecidableEq, Repr

/-- `CodeVisualizer.updateFileLayoutsFromPanes`: clears the file-layout
map and rebuilds it from the pane layouts of panes that hold a file. -/
def updateFileLayoutsFromPanes (pm : PaneManager) :
    List (String × FileLayout) :=
  (sortByOrder pm.panes).foldl (fun acc p =>
    match assocGet p.id pm.paneLayouts, p.fileId with
    | some pl, some fid =>
      assocSet fid ⟨fid, pl.x, pl.y, pl.width, pl.height - pl.tabHeight, true⟩ acc
    | _, _ => acc) []

/-- `CodeVisualizer.removeCodeFile`: drops the document, prunes every
connection referencing it, detaches it from its panes and rebuilds the
file layouts (the direct `fileLayouts.delete` is immediately superseded
by the rebuild, which clears the map first). -/
def removeCodeFile (id : String) (st : VisualizerState) : VisualizerState :=
  let pm := { st.paneManager with
    panes := st.paneManager.panes.map (fun p =>
      if p.fileId = some id then { p with fileId := none, title := "Empty Pane" }
      else p) }
  { codeFiles := st.codeFiles.filter (fun k => !(k == id)),
    fileLayouts := updateFileLayoutsFromPanes pm,
    connectionLines := st.connectionLines.filter (fun conn =>
      !(conn.start.fileId == some id) && !(conn.end'.fileId == some id)),
    paneManager := pm }

/-- Claim C2: after `removeCodeFile id`, no connection references the
removed document at either end, every connection referencing neither end
survives, and the surviving list is a sublist (original order) of the
old one. -/
theorem removeCodeFile_prunes_connections (id : String)
    (st : VisualizerState) :
    (∀ conn ∈ (removeCodeFile id st).connectionLines,
      conn.start.fileId ≠ some id ∧ conn.end'.fileId ≠ some id) ∧
    (∀ conn ∈ st.connectionLines,
      conn.start.fileId ≠ some id → conn.end'.fileId ≠ some id →
        conn ∈ (removeCodeFile id st).connectionLines) ∧
    (removeCodeFile id st).connectionLines.Sublist st.connectionLines := by
  refine ⟨?_, ?_, ?_⟩
  · intro conn hmem
    simp only [removeCodeFile, List.mem_filter, Bool.and_eq_true,
      Bool.not_eq_true', beq_eq_false_iff_ne, ne_eq] at hmem
    exact ⟨hmem.2.1, hmem.2.2⟩
  · intro conn hmem h1 h2
    simp only [removeCodeFile, List.mem_filter, Bool.and_eq_true,
      Bool.not_eq_true', beq_eq_false_iff_ne, ne_eq]
    exact ⟨hmem, h1, h2⟩
  · show (st.connectionLines.filter _).Sublist st.connectionLines
    exact List.filter_sublist _

/-! ## Connection import/export (claims C4, C5)

`CodeVisualizer.exportConnections` is
`JSON.stringify(this.connectionLines, null, 2)` and
`CodeVisualizer.importConnections` is `JSON.parse` inside `try`/`catch`
followed by an unchecked cast and a wholesale assignment.
`JSON.parse`/`JSON.stringify` are browser builtins, not repository code;
they are modelled from the spec below over a JSON value type whose
numbers are integers (every numeric connection field — indices and
stroke width — is integral).  The serializer reproduces the
`JSON.stringify(·, null, 2)` layout (two-space indentation); the parser
is a fuelled recursive-descent reader of the JSON grammar.
-/

/-- Modelled from the spec: JSON values (numbers restricted to
integers). -/
inductive Json where
  | null : Json
  | bool (b : Bool) : Json
  | num (n : ℤ) : Json
  | str (s : List Char) : Json
  | arr (items : List Json) : Json
  | obj (members : List (List Char × Json)) : Json

/-- The opening brace character. -/
def openBraceC : Char := Char.ofNat 123

/-- The closing brace character. -/
def closeBraceC : Char := Char.ofNat 125

/-- Decimal digit character. -/
def digitChar (d : ℕ) : Char := Char.ofNat (48 + d)

/-- Lower-case hexadecimal digit character. -/
def hexDigit (d : ℕ) : Char :=
  if d < 10 then Char.ofNat (48 + d) else Char.ofNat (87 + d)

/-- Decimal notation of a natural number. -/
def natDec (n : ℕ) : List Char :=
  if h : n < 10 then [digitChar n]
  else natDec (n / 10) ++ [digitChar (n % 10)]
termination_by n
decreasing_by exact Nat.div_lt_self (by omega) (by omega)

/-- Decimal notation of an integer (JavaScript `String(n)`). -/
def intDec (n : ℤ) : List Char :=
  if n < 0 then '-' :: natDec n.natAbs else natDec n.toNat

/-- `QuoteJSONString` escaping of one character: quote, backslash and
the named control escapes, `\u00xx` for other control characters,
everything else verbatim. -/
def escChar (c : Char) : List Char :=
  if c = '"' then ['\\', '"']
  else if c = '\\' then ['\\', '\\']
  else if c = '\x08' then ['\\', 'b']
  else if c = '\x0c' then ['\\', 'f']
  else if c = '\n' then ['\\', 'n']
  else if c = '\r' then ['\\', 'r']
  else if c = '\t' then ['\\', 't']
  else if c.toNat < 32 then
    ['\\', 'u', '0', '0', hexDigit (c.toNat / 16), hexDigit (c.toNat % 16)]
  else [c]

/-- A quoted, escaped JSON string literal. -/
def quoteStr (s : List Char) : List Char :=
  '"' :: ((s.map escChar).flatten ++ ['"'])

/-- The two-space `gap` of `JSON.stringify(·, null, 2)`. -/
def jsonGap : List Char := [' ', ' ']

mutual

/-- `JSON.stringify(·, null, 2)` at indentation `ind`. -/
def sJson (ind : List Char) : Json → List Char
  | .null => "null".toList
  | .bool true => "true".toList
  | .bool false => "false".toList
  | .num n => intDec n
  | .str s => quoteStr s
  | .arr [] => ['[', ']']
  | .arr (x :: xs) =>
    '[' :: '\n' :: ((ind ++ jsonGap) ++ (sJson (ind ++ jsonGap) x ++
      (sArrItems (ind ++ jsonGap) xs ++ ('\n' :: (ind ++ [']'])))))
  | .obj [] => [openBraceC, closeBraceC]
  | .obj (m :: ms) =>
    openBraceC :: '\n' :: ((ind ++ jsonGap) ++ (sObjMember (ind ++ jsonGap) m ++
      (sObjMembers (ind ++ jsonGap) ms ++ ('\n' :: (ind ++ [closeBraceC])))))

/-- Remaining array items, each preceded by `",\n" ++ ind`. -/
def sArrItems (ind : List Char) : List Json → List Char
  | [] => []
  | x :: xs => ',' :: '\n' :: (ind ++ (sJson ind x ++ sArrItems ind xs))

/-- One object member: `"key": value`. -/
def sObjMember (ind : List Char) (m : List Char × Json) : List Char :=
  quoteStr m.1 ++ (':' :: ' ' :: sJson ind m.2)

/-- Remaining object members, each preceded by `",\n" ++ ind`. -/
def sObjMembers (ind : List Char) : List (List Char × Json) → List Char
  | [] => []
  | m :: ms => ',' :: '\n' :: (ind ++ (sObjMember ind m ++ sObjMembers ind ms))

end

/-- Modelled from the spec: `JSON.stringify(·, null, 2)`. -/
def stringify (j : Json) : List Char := sJson [] j

/-- JSON grammar whitespace. -/
def isJsonWs (c : Char) : Bool := c = ' ' || c = '\t' || c = '\n' || c = '\r'

/-- Skip JSON whitespace. -/
def skipWs (s : List Char) : List Char := s.dropWhile isJsonWs

/-- Hexadecimal digit test. -/
def isHexDigit (c : Char) : Bool :=
  isDigitC c || ('a' ≤ c && c ≤ 'f') || ('A' ≤ c && c ≤ 'F')

/-- Value of a hexadecimal digit. -/
def hexVal (c : Char) : ℕ :=
  if isDigitC c then c.toNat - 48
  else if 'a' ≤ c && c ≤ 'f' then c.toNat - 87
  else c.toNat - 55

/-- JSON string body (after the opening quote): ends at the closing
quote, decodes escapes, rejects raw control characters. -/
def parseStrBody : List Char → Option (List Char × List Char)
  | [] => none
  | c :: cs =>
    if c = '"' then some ([], cs)
    else if c = '\\' then
      match cs with
      | [] => none
      | e :: es =>
        if e = '"' ∨ e = '\\' ∨ e = '/' then
          (parseStrBody es).map (fun r => (e :: r.1, r.2))
        else if e = 'b' then
          (parseStrBody es).map (fun r => ('\x08' :: r.1, r.2))
        else if e = 'f' then
          (parseStrBody es).map (fun r => ('\x0c' :: r.1, r.2))
        else if e = 'n' then
          (parseStrBody es).map (fun r => ('\n' :: r.1, r.2))
        else if e = 'r' then
          (parseStrBody es).map (fun r => ('\r' :: r.1, r.2))
        else if e = 't' then
          (parseStrBody es).map (fun r => ('\t' :: r.1, r.2))
        else if e = 'u' then
          match es with
          | h1 :: h2 :: h3 :: h4 :: es' =>
            if isHexDigit h1 && isHexDigit h2 && isHexDigit h3 && isHexDigit h4 then
              (parseStrBody es').map (fun r =>
                (Char.ofNat (((hexVal h1 * 16 + hexVal h2) * 16 + hexVal h3) * 16
                  + hexVal h4) :: r.1, r.2))
            else none
          | _ => none
        else none
    else if c.toNat < 32 then none
    else (parseStrBody cs).map (fun r => (c :: r.1, r.2))

/-- Numeric value of a digit string. -/
def digitsVal (ds : List Char) : ℕ :=
  ds.foldl (fun a c => 10 * a + (c.toNat - 48)) 0

/-- A natural-number token: one or more digits. -/
def parseNatTok (s : List Char) : Option (ℕ × List Char) :=
  let ds := s.takeWhile isDigitC
  if ds.isEmpty then none else some (digitsVal ds, s.drop ds.length)

/-- An integer token: optional minus sign then digits. -/
def parseNumTok (s : List Char) : Option (ℤ × List Char) :=
  if s.head? = some '-' then
    (parseNatTok s.tail).map (fun r => (-(r.1 : ℤ), r.2))
  else (parseNatTok s).map (fun r => ((r.1 : ℤ), r.2))

mutual

/-- Fuelled JSON value parser (the fuel is a structural-recursion
device; the top-level entry point supplies enough of it for any input,
see `parse_stringify`). -/
def parseVal : ℕ → List Char → Option (Json × List Char)
  | 0, _ => none
  | f + 1, s =>
    match skipWs s with
    | [] => none
    | c :: cs =>
      if c = 'n' then
        if isPre ("ull".toList) cs then some (.null, cs.drop 3) else none
      else if c = 't' then
        if isPre ("rue".toList) cs then some (.bool true, cs.drop 3) else none
      else if c = 'f' then
        if isPre ("alse".toList) cs then some (.bool false, cs.drop 4) else none
      else if c = '"' then
        (parseStrBody cs).map (fun r => (.str r.1, r.2))
      else if c = '[' then
        let s1 := skipWs cs
        if s1.head? = some ']' then some (.arr [], s1.tail)
        else (parseItems f s1).map (fun r => (.arr r.1, r.2))
      else if c = openBraceC then
        let s1 := skipWs cs
        if s1.head? = some closeBraceC then some (.obj [], s1.tail)
        else (parseMembers f s1).map (fun r => (.obj r.1, r.2))
      else
        (parseNumTok (c :: cs)).map (fun r => (.num r.1, r.2))

/-- Fuelled array-items parser: `value ((',' value)* ']' | ']')`. -/
def parseItems : ℕ → List Char → Option (List Json × List Char)
  | 0, _ => none
  | f + 1, s =>
    match parseVal f s with
    | none => none
    | some (v, r) =>
      let r1 := skipWs r
      if r1.head? = some ']' then some ([v], r1.tail)
      else if r1.head? = some ',' then
        (parseItems f r1.tail).map (fun r3 => (v :: r3.1, r3.2))
      else none

/-- Fuelled object-members parser: `'"' key '"' ':' value (',' … | closing brace)`. -/
def parseMembers : ℕ → List Char →
    Option (List (List Char × Json) × List Char)
  | 0, _ => none
  | f + 1, s =>
    match skipWs s with
    | '"' :: cs =>
      match parseStrBody cs with
      | none => none
      | some (k, r) =>
        match skipWs r with
        | ':' :: r2 =>
          match parseVal f r2 with
          | none => none
          | some (v, r3) =>
            let r4 := skipWs r3
            if r4.head? = some closeBraceC then some ([(k, v)], r4.tail)
            else if r4.head? = some ',' then
              (parseMembers f r4.tail).map (fun r5 => ((k, v) :: r5.1, r5.2))
            else none
        | _ => none
    | _ => none

end

/-- Modelled from the spec: `JSON.parse` on a whole JSON text (only
whitespace may follow the value); `none` models the thrown
`SyntaxError`. -/
def parse (s : List Char) : Option Json :=
  match parseVal (2 * s.length + 2) s with
  | none => none
  | some (v, r) => if (skipWs r).isEmpty then some v else none

/-- The dynamically-typed in-memory `connectionLines` value as seen by
import/export: `importConnections` installs whatever `JSON.parse`
returned (the cast `as ConnectionLine[]` does not validate). -/
structure ConnectionStore where
  connections : Json

/-- `CodeVisualizer.importConnections`: on a parse failure the error is
logged and the state is left untouched; on success the parsed value
replaces the list wholesale. -/
def importConnections (connectionsJson : List Char) (st : ConnectionStore) :
    ConnectionStore :=
  match parse connectionsJson with
  | none => st
  | some j => { connections := j }

/-- `CodeVisualizer.exportConnections`. -/
def exportConnections (st : ConnectionStore) : List Char :=
  stringify st.connections

/-- The JSON value of a `TextSelection` (field order of
`updateSelection`'s object literal; an absent `fileId` is omitted, as
`JSON.stringify` drops `undefined` fields). -/
def selToJson (s : TextSelection) : Json :=
  .obj ([(("startCharIndex").toList, .num s.startCharIndex),
    (("endCharIndex").toList, .num s.endCharIndex),
    (("startLine").toList, .num s.startLine),
    (("endLine").toList, .num s.endLine)] ++
    (match s.fileId with
     | none => []
     | some fid => [(("fileId").toList, .str fid.toList)]))

/-- The serialized name of a `LineStyle`. -/
def styleStr : LineStyle → List Char
  | .solid => "solid".toList
  | .dotted => "dotted".toList
  | .dashed => "dashed".toList

/-- The JSON value of a `ConnectionLine` (field order of the creation
literal; an absent `label` is omitted). -/
def connToJson (c : ConnectionLine) : Json :=
  .obj ([(("id").toList, .str c.id.toList),
    (("start").toList, selToJson c.start),
    (("end").toList, selToJson c.end'),
    (("color").toList, .str c.color.toList),
    (("width").toList, .num c.width),
    (("style").toList, .str (styleStr c.style))] ++
    (match c.label with
     | none => []
     | some l => [(("label").toList, .str l.toList)]))

/-- The JSON value of a connection list. -/
def connListToJson (cs : List ConnectionLine) : Json :=
  .arr (cs.map connToJson)

/-! ### Support lemmas for the print–parse round trip -/

/-- Only whitespace characters. -/
def WsOnly (s : List Char) : Prop := ∀ c ∈ s, isJsonWs c = true

/-- Only space characters (indentation strings). -/
def IndentOnly (s : List Char) : Prop := ∀ c ∈ s, c = ' '

/-- The continuation does not start with a digit (so a number token
cannot leak into it). -/
def NumDelim (s : List Char) : Prop :=
  ∀ c, s.head? = some c → isDigitC c = false

theorem indentOnly_wsOnly {s : List Char} (h : IndentOnly s) : WsOnly s := by
  intro c hc
  rw [h c hc]
  decide

theorem indentOnly_gap {s : List Char} (h : IndentOnly s) :
    IndentOnly (s ++ jsonGap) := by
  intro c hc
  rcases List.mem_append.mp hc with h1 | h1
  · exact h c h1
  · simpa [jsonGap] using h1

theorem isDigitC_toNat_bounds {c : Char} (h : isDigitC c = true) :
    48 ≤ c.toNat ∧ c.toNat ≤ 57 := by
  simpa [isDigitC] using h

theorem ne_of_digit {c : Char} (h : isDigitC c = true) (d : Char)
    (hd : 58 ≤ d.toNat ∨ d.toNat ≤ 47) : c ≠ d := by
  intro hcd
  subst hcd
  have := isDigitC_toNat_bounds h
  omega

theorem isJsonWs_toNat {c : Char} (h : isJsonWs c = true) :
    c.toNat = 32 ∨ c.toNat = 9 ∨ c.toNat = 10 ∨ c.toNat = 13 := by
  simp only [isJsonWs, Bool.or_eq_true, decide_eq_true_eq] at h
  rcases h with ((h | h) | h) | h <;> subst h <;> simp

theorem digit_not_ws {c : Char} (h : isDigitC c = true) :
    isJsonWs c = false := by
  cases hw : isJsonWs c
  · rfl
  · have h1 := isJsonWs_toNat hw
    have h2 := isDigitC_toNat_bounds h
    omega

theorem digitChar_toNat {d : ℕ} (h : d < 10) : (digitChar d).toNat = 48 + d := by
  interval_cases d <;> decide

theorem isDigitC_digitChar {d : ℕ} (h : d < 10) :
    isDigitC (digitChar d) = true := by
  interval_cases d <;> decide

theorem natDec_all_digits : ∀ n : ℕ, ∀ c ∈ natDec n, isDigitC c = true := by
  intro n
  induction n using Nat.strong_induction_on with
  | _ n ih =>
    rw [natDec]
    split
    · rename_i h
      intro c hc
      rcases List.mem_singleton.mp hc with rfl
      exact isDigitC_digitChar h
    · rename_i h
      intro c hc
      rcases List.mem_append.mp hc with h1 | h1
      · exact ih (n / 10) (Nat.div_lt_self (by omega) (by omega)) c h1
      · rcases List.mem_singleton.mp h1 with rfl
        exact isDigitC_digitChar (Nat.mod_lt n (by omega))

theorem natDec_ne_nil (n : ℕ) : natDec n ≠ [] := by
  rw [natDec]
  split
  · simp
  · simp

theorem digitsVal_append_singleton (xs : List Char) (c : Char) :
    digitsVal (xs ++ [c]) = 10 * digitsVal xs + (c.toNat - 48) := by
  simp [digitsVal, List.foldl_append]

theorem digitsVal_natDec : ∀ n : ℕ, digitsVal (natDec n) = n := by
  intro n
  induction n using Nat.strong_induction_on with
  | _ n ih =>
    rw [natDec]
    split
    · rename_i h
      simp [digitsVal, digitChar_toNat h]
    · rename_i h
      rw [digitsVal_append_singleton,
        ih (n / 10) (Nat.div_lt_self (by omega) (by omega)),
        digitChar_toNat (Nat.mod_lt n (by omega))]
      omega

theorem takeWhile_append_of_all {p : Char → Bool} :
    ∀ {xs ys : List Char}, (∀ x ∈ xs, p x = true) →
      (∀ c, ys.head? = some c → p c = false) →
      (xs ++ ys).takeWhile p = xs := by
  intro xs
  induction xs with
  | nil =>
    intro ys _ hys
    cases ys with
    | nil => rfl
    | cons c t =>
      simp only [List.nil_append, List.takeWhile_cons, hys c rfl,
        Bool.false_eq_true, if_false]
  | cons x xs ih =>
    intro ys hxs hys
    simp only [List.cons_append, List.takeWhile_cons,
      hxs x (List.mem_cons_self x xs), if_true]
    rw [ih (fun a ha => hxs a (List.mem_cons_of_mem x ha)) hys]

theorem parseNatTok_natDec (n : ℕ) {rest : List Char} (hrest : NumDelim rest) :
    parseNatTok (natDec n ++ rest) = some (n, rest) := by
  simp only [parseNatTok]
  rw [takeWhile_append_of_all (natDec_all_digits n) hrest]
  rw [if_neg (by simpa using natDec_ne_nil n)]
  rw [digitsVal_natDec, List.drop_left]

theorem parseNumTok_intDec (n : ℤ) {rest : List Char} (hrest : NumDelim rest) :
    parseNumTok (intDec n ++ rest) = some (n, rest) := by
  unfold intDec
  by_cases hn : n < 0
  · rw [if_pos hn]
    simp only [parseNumTok, List.cons_append, List.head?_cons, List.tail_cons,
      Option.some.injEq, if_pos]
    rw [parseNatTok_natDec n.natAbs hrest]
    simp only [Option.map_some']
    congr 1
    refine Prod.ext ?_ rfl
    show -(n.natAbs : ℤ) = n
    omega
  · rw [if_neg hn]
    obtain ⟨d, ds, hds⟩ := List.exists_cons_of_ne_nil (natDec_ne_nil n.toNat)
    have hd : isDigitC d = true := by
      apply natDec_all_digits n.toNat
      rw [hds]
      exact List.mem_cons_self d ds
    simp only [parseNumTok]
    rw [if_neg ?_]
    · rw [parseNatTok_natDec n.toNat hrest]
      simp only [Option.map_some']
      congr 1
      refine Prod.ext ?_ rfl
      show ((n.toNat : ℤ)) = n
      omega
    · rw [hds, List.cons_append, List.head?_cons]
      intro hcon
      have : d = '-' := by injection hcon
      exact ne_of_digit hd '-' (by decide) this

theorem skipWs_append_of_ws {pre : List Char} (t : List Char)
    (h : WsOnly pre) : skipWs (pre ++ t) = skipWs t := by
  induction pre with
  | nil => rfl
  | cons c cs ih =>
    simp only [skipWs, List.cons_append, List.dropWhile_cons,
      h c (List.mem_cons_self c cs), if_true]
    exact ih (fun a ha => h a (List.mem_cons_of_mem c ha))

theorem skipWs_eq_self {t : List Char}
    (h : ∀ c, t.head? = some c → isJsonWs c = false) : skipWs t = t := by
  cases t with
  | nil => rfl
  | cons c cs =>
    simp only [skipWs, List.dropWhile_cons, h c rfl, Bool.false_eq_true,
      if_false]

theorem isPre_append_self : ∀ (pat t : List Char), isPre pat (pat ++ t) = true := by
  intro pat
  induction pat with
  | nil => intro t; rfl
  | cons c cs ih =>
    intro t
    simp only [List.cons_append, isPre, beq_self_eq_true, Bool.true_and]
    exact ih t

/-- The possible first characters of a serialized JSON value. -/
def ValHead (c : Char) : Prop :=
  c = 'n' ∨ c = 't' ∨ c = 'f' ∨ c = '"' ∨ c = '[' ∨ c = openBraceC ∨
  isDigitC c = true ∨ c = '-'

theorem sJson_cons (ind : List Char) (j : Json) :
    ∃ c t, sJson ind j = c :: t ∧ ValHead c := by
  cases j with
  | null => exact ⟨'n', "ull".toList, by simp [sJson], Or.inl rfl⟩
  | bool b =>
    cases b with
    | true => exact ⟨'t', "rue".toList, by simp [sJson], Or.inr (Or.inl rfl)⟩
    | false =>
      exact ⟨'f', "alse".toList, by simp [sJson],
        Or.inr (Or.inr (Or.inl rfl))⟩
  | num n =>
    by_cases hn : n < 0
    · refine ⟨'-', natDec n.natAbs, by simp [sJson, intDec, hn], ?_⟩
      exact Or.inr (Or.inr (Or.inr (Or.inr (Or.inr (Or.inr (Or.inr rfl))))))
    · obtain ⟨d, ds, hds⟩ := List.exists_cons_of_ne_nil (natDec_ne_nil n.toNat)
      have hd : isDigitC d = true := by
        apply natDec_all_digits n.toNat
        rw [hds]
        exact List.mem_cons_self d ds
      refine ⟨d, ds, by simp [sJson, intDec, hn, hds], ?_⟩
      exact Or.inr (Or.inr (Or.inr (Or.inr (Or.inr (Or.inr (Or.inl hd))))))
  | str s =>
    exact ⟨'"', (s.map escChar).flatten ++ ['"'], by simp [sJson, quoteStr],
      Or.inr (Or.inr (Or.inr (Or.inl rfl)))⟩
  | arr items =>
    cases items with
    | nil =>
      exact ⟨'[', [']'], by simp [sJson], Or.inr (Or.inr (Or.inr (Or.inr
        (Or.inl rfl))))⟩
    | cons x xs =>
      refine ⟨'[', '\n' :: ((ind ++ jsonGap) ++ (sJson (ind ++ jsonGap) x ++
        (sArrItems (ind ++ jsonGap) xs ++ ('\n' :: (ind ++ [']']))))),
        by simp [sJson], Or.inr (Or.inr (Or.inr (Or.inr (Or.inl rfl))))⟩
  | obj members =>
    cases members with
    | nil =>
      exact ⟨openBraceC, [closeBraceC], by simp [sJson], Or.inr (Or.inr
        (Or.inr (Or.inr (Or.inr (Or.inl rfl)))))⟩
    | cons m ms =>
      refine ⟨openBraceC, '\n' :: ((ind ++ jsonGap) ++
        (sObjMember (ind ++ jsonGap) m ++ (sObjMembers (ind ++ jsonGap) ms ++
          ('\n' :: (ind ++ [closeBraceC]))))),
        by simp [sJson], Or.inr (Or.inr (Or.inr (Or.inr (Or.inr (Or.inl rfl)))))⟩

theorem valHead_props {c : Char} (h : ValHead c) :
    isJsonWs c = false ∧ c ≠ ']' ∧ c ≠ closeBraceC ∧ c ≠ ',' := by
  rcases h with rfl | rfl | rfl | rfl | rfl | rfl | hd | rfl
  · exact ⟨by decide, by decide, by decide, by decide⟩
  · exact ⟨by decide, by decide, by decide, by decide⟩
  · exact ⟨by decide, by decide, by decide, by decide⟩
  · exact ⟨by decide, by decide, by decide, by decide⟩
  · exact ⟨by decide, by decide, by decide, by decide⟩
  · exact ⟨by decide, by decide, by decide, by decide⟩
  · exact ⟨digit_not_ws hd, ne_of_digit hd ']' (by decide),
      ne_of_digit hd closeBraceC (by decide), ne_of_digit hd ',' (by decide)⟩
  · exact ⟨by decide, by decide, by decide, by decide⟩

theorem sJson_length_pos (ind : List Char) (j : Json) :
    1 ≤ (sJson ind j).length := by
  obtain ⟨c, t, heq, -⟩ := sJson_cons ind j
  simp [heq]

theorem hexDigit_isHex {d : ℕ} (h : d < 16) : isHexDigit (hexDigit d) = true := by
  interval_cases d <;> decide

theorem hexVal_hexDigit {d : ℕ} (h : d < 16) : hexVal (hexDigit d) = d := by
  interval_cases d <;> decide

theorem psb_quote (t : List Char) : parseStrBody ('"' :: t) = some ([], t) := by
  rw [parseStrBody.eq_def]
  simp

theorem psb_esc_q (t : List Char) : parseStrBody ('\\' :: '"' :: t) =
    (parseStrBody t).map (fun r => ('"' :: r.1, r.2)) := by
  rw [parseStrBody.eq_def]
  simp

theorem psb_esc_bs (t : List Char) : parseStrBody ('\\' :: '\\' :: t) =
    (parseStrBody t).map (fun r => ('\\' :: r.1, r.2)) := by
  rw [parseStrBody.eq_def]
  simp

theorem psb_esc_b (t : List Char) : parseStrBody ('\\' :: 'b' :: t) =
    (parseStrBody t).map (fun r => ('\x08' :: r.1, r.2)) := by
  rw [parseStrBody.eq_def]
  simp

theorem psb_esc_f (t : List Char) : parseStrBody ('\\' :: 'f' :: t) =
    (parseStrBody t).map (fun r => ('\x0c' :: r.1, r.2)) := by
  rw [parseStrBody.eq_def]
  simp

theorem psb_esc_n (t : List Char) : parseStrBody ('\\' :: 'n' :: t) =
    (parseStrBody t).map (fun r => ('\n' :: r.1, r.2)) := by
  rw [parseStrBody.eq_def]
  simp

theorem psb_esc_r (t : List Char) : parseStrBody ('\\' :: 'r' :: t) =
    (parseStrBody t).map (fun r => ('\r' :: r.1, r.2)) := by
  rw [parseStrBody.eq_def]
  simp

theorem psb_esc_t (t : List Char) : parseStrBody ('\\' :: 't' :: t) =
    (parseStrBody t).map (fun r => ('\t' :: r.1, r.2)) := by
  rw [parseStrBody.eq_def]
  simp

theorem psb_esc_u (a b c d : Char) (t : List Char) :
    parseStrBody ('\\' :: 'u' :: a :: b :: c :: d :: t) =
    (if isHexDigit a && isHexDigit b && isHexDigit c && isHexDigit d then
      (parseStrBody t).map (fun r =>
        (Char.ofNat (((hexVal a * 16 + hexVal b) * 16 + hexVal c) * 16 +
          hexVal d) :: r.1, r.2))
    else none) := by
  rw [parseStrBody.eq_def]
  simp

theorem psb_ordinary {c : Char} (t : List Char) (h1 : ¬ c = '"')
    (h2 : ¬ c = '\\') (h3 : ¬ c.toNat < 32) :
    parseStrBody (c :: t) = (parseStrBody t).map (fun r => (c :: r.1, r.2)) := by
  rw [parseStrBody.eq_def]
  simp only [if_neg h1, if_neg h2, if_neg h3]

/-- The JSON string reader inverts `QuoteJSONString` escaping. -/
theorem parseStrBody_roundtrip :
    ∀ (s rest : List Char),
      parseStrBody ((s.map escChar).flatten ++ ('"' :: rest)) =
        some (s, rest) := by
  intro s
  induction s with
  | nil => intro rest; exact psb_quote rest
  | cons c cs ih =>
    intro rest
    simp only [List.map_cons, List.flatten_cons, List.append_assoc]
    by_cases h1 : c = '"'
    · subst h1
      rw [show escChar '"' = ['\\', '"'] from by simp [escChar],
        List.cons_append, List.cons_append, List.nil_append, psb_esc_q, ih]
      rfl
    by_cases h2 : c = '\\'
    · subst h2
      rw [show escChar '\\' = ['\\', '\\'] from by simp [escChar],
        List.cons_append, List.cons_append, List.nil_append, psb_esc_bs, ih]
      rfl
    by_cases h3 : c = '\x08'
    · subst h3
      rw [show escChar '\x08' = ['\\', 'b'] from by simp [escChar],
        List.cons_append, List.cons_append, List.nil_append, psb_esc_b, ih]
      rfl
    by_cases h4 : c = '\x0c'
    · subst h4
      rw [show escChar '\x0c' = ['\\', 'f'] from by simp [escChar],
        List.cons_append, List.cons_append, List.nil_append, psb_esc_f, ih]
      rfl
    by_cases h5 : c = '\n'
    · subst h5
      rw [show escChar '\n' = ['\\', 'n'] from by simp [escChar],
        List.cons_append, List.cons_append, List.nil_append, psb_esc_n, ih]
      rfl
    by_cases h6 : c = '\r'
    · subst h6
      rw [show escChar '\r' = ['\\', 'r'] from by simp [escChar],
        List.cons_append, List.cons_append, List.nil_append, psb_esc_r, ih]
      rfl
    by_cases h7 : c = '\t'
    · subst h7
      rw [show escChar '\t' = ['\\', 't'] from by simp [escChar],
        List.cons_append, List.cons_append, List.nil_append, psb_esc_t, ih]
      rfl
    by_cases h8 : c.toNat < 32
    · have hesc : escChar c = ['\\', 'u', '0', '0', hexDigit (c.toNat / 16),
          hexDigit (c.toNat % 16)] := by
        simp [escChar, h1, h2, h3, h4, h5, h6, h7, h8]
      rw [hesc]
      simp only [List.cons_append, List.nil_append]
      rw [psb_esc_u]
      rw [if_pos (by
        simp [show isHexDigit '0' = true from by decide,
          hexDigit_isHex (show c.toNat / 16 < 16 by omega),
          hexDigit_isHex (show c.toNat % 16 < 16 by omega)])]
      rw [ih]
      rw [show hexVal '0' = 0 from by decide,
        hexVal_hexDigit (show c.toNat / 16 < 16 by omega),
        hexVal_hexDigit (show c.toNat % 16 < 16 by omega)]
      rw [show ((0 * 16 + 0) * 16 + c.toNat / 16) * 16 + c.toNat % 16 =
        c.toNat from by omega]
      rw [Char.ofNat_toNat]
      rfl
    · have hesc : escChar c = [c] := by
        simp [escChar, h1, h2, h3, h4, h5, h6, h7, h8]
      rw [hesc]
      simp only [List.cons_append, List.nil_append]
      rw [psb_ordinary _ h1 h2 h8, ih]
      rfl

/-- Round trip of one serialized value at fuel `f`, with an arbitrary
whitespace prefix and a non-digit-headed continuation. -/
def RoundVal (f : ℕ) : Prop :=
  ∀ (j : Json) (ind pre rest : List Char), IndentOnly ind → WsOnly pre →
    NumDelim rest → 2 * (sJson ind j).length < f →
    parseVal f (pre ++ (sJson ind j ++ rest)) = some (j, rest)

/-- Round trip of a serialized nonempty array tail at fuel `f`. -/
def RoundItems (f : ℕ) : Prop :=
  ∀ (x : Json) (xs : List Json) (ind pre rest : List Char), IndentOnly ind →
    WsOnly pre →
    2 * ((sJson (ind ++ jsonGap) x).length +
      (sArrItems (ind ++ jsonGap) xs).length) + 2 < f →
    parseItems f (pre ++ (sJson (ind ++ jsonGap) x ++
      (sArrItems (ind ++ jsonGap) xs ++ ('\n' :: (ind ++ (']' :: rest)))))) =
      some (x :: xs, rest)

/-- Round trip of a serialized nonempty object tail at fuel `f`. -/
def RoundMembers (f : ℕ) : Prop :=
  ∀ (k : List Char) (v : Json) (ms : List (List Char × Json))
    (ind pre rest : List Char), IndentOnly ind → WsOnly pre →
    2 * ((sObjMember (ind ++ jsonGap) (k, v)).length +
      (sObjMembers (ind ++ jsonGap) ms).length) + 2 < f →
    parseMembers f (pre ++ (sObjMember (ind ++ jsonGap) (k, v) ++
      (sObjMembers (ind ++ jsonGap) ms ++
        ('\n' :: (ind ++ (closeBraceC :: rest)))))) =
      some ((k, v) :: ms, rest)

theorem wsOnly_cons {c : Char} {t : List Char} (hc : isJsonWs c = true)
    (h : WsOnly t) : WsOnly (c :: t) := by
  intro d hd
  rcases List.mem_cons.mp hd with rfl | hd
  · exact hc
  · exact h d hd

theorem numDelim_cons {c : Char} {t : List Char} (h : isDigitC c = false) :
    NumDelim (c :: t) := by
  intro d hd
  injection hd with hd
  subst hd
  exact h

/-- Skipping whitespace before a serialized value exposes the value. -/
theorem skipWs_pre_val (w ind : List Char) (j : Json) (t : List Char)
    (hw : WsOnly w) :
    skipWs (w ++ (sJson ind j ++ t)) = sJson ind j ++ t := by
  rw [skipWs_append_of_ws _ hw]
  obtain ⟨c, u, heq, hhd⟩ := sJson_cons ind j
  rw [heq, List.cons_append]
  refine skipWs_eq_self ?_
  intro d hd
  injection hd with hd
  subst hd
  exact (valHead_props hhd).1

/-- The step lemma for `parseVal`. -/
theorem parseVal_step (f : ℕ) (ih1 : RoundVal f) (ih2 : RoundItems f)
    (ih3 : RoundMembers f) : RoundVal (f + 1) := by
  intro j ind pre rest hind hpre hnd hfuel
  cases j with
  | null =>
    have hj : sJson ind Json.null = 'n' :: "ull".toList := by simp [sJson]
    rw [hj]
    have hskip : skipWs (pre ++ ('n' :: "ull".toList ++ rest)) =
        'n' :: ("ull".toList ++ rest) := by
      rw [skipWs_append_of_ws _ hpre, List.cons_append]
      exact skipWs_eq_self (by intro c hc; injection hc with hc; subst hc; decide)
    simp only [parseVal, hskip, if_true]
    rw [if_pos (isPre_append_self _ _)]
    rw [show (3 : ℕ) = ("ull".toList).length from rfl, List.drop_left]
  | bool b =>
    cases b with
    | true =>
      have hj : sJson ind (Json.bool true) = 't' :: "rue".toList := by
        simp [sJson]
      rw [hj]
      have hskip : skipWs (pre ++ ('t' :: "rue".toList ++ rest)) =
          't' :: ("rue".toList ++ rest) := by
        rw [skipWs_append_of_ws _ hpre, List.cons_append]
        exact skipWs_eq_self
          (by intro c hc; injection hc with hc; subst hc; decide)
      simp only [parseVal, hskip, if_true]
      rw [if_neg (show ¬ ('t' : Char) = 'n' from by decide)]
      rw [if_pos (isPre_append_self _ _)]
      rw [show (3 : ℕ) = ("rue".toList).length from rfl, List.drop_left]
    | false =>
      have hj : sJson ind (Json.bool false) = 'f' :: "alse".toList := by
        simp [sJson]
      rw [hj]
      have hskip : skipWs (pre ++ ('f' :: "alse".toList ++ rest)) =
          'f' :: ("alse".toList ++ rest) := by
        rw [skipWs_append_of_ws _ hpre, List.cons_append]
        exact skipWs_eq_self
          (by intro c hc; injection hc with hc; subst hc; decide)
      simp only [parseVal, hskip, if_true]
      rw [if_neg (show ¬ ('f' : Char) = 'n' from by decide),
        if_neg (show ¬ ('f' : Char) = 't' from by decide)]
      rw [if_pos (isPre_append_self _ _)]
      rw [show (4 : ℕ) = ("alse".toList).length from rfl, List.drop_left]
  | num n =>
    have hj : sJson ind (Json.num n) = intDec n := by simp [sJson]
    obtain ⟨d, ds, hds⟩ : ∃ d ds, intDec n = d :: ds := by
      unfold intDec
      split
      · exact ⟨'-', natDec n.natAbs, rfl⟩
      · obtain ⟨d, ds, hds⟩ :=
          List.exists_cons_of_ne_nil (natDec_ne_nil n.toNat)
        exact ⟨d, ds, hds⟩
    have hdprop : isDigitC d = true ∨ d = '-' := by
      unfold intDec at hds
      revert hds
      split
      · intro hds
        injection hds with h1 h2
        exact Or.inr h1.symm
      · intro hds
        refine Or.inl (natDec_all_digits n.toNat d ?_)
        rw [hds]
        exact List.mem_cons_self d ds
    have hne : (¬ d = 'n') ∧ (¬ d = 't') ∧ (¬ d = 'f') ∧ (¬ d = '"') ∧
        (¬ d = '[') ∧ (¬ d = openBraceC) := by
      rcases hdprop with hd | rfl
      · exact ⟨ne_of_digit hd 'n' (by decide), ne_of_digit hd 't' (by decide),
          ne_of_digit hd 'f' (by decide), ne_of_digit hd '"' (by decide),
          ne_of_digit hd '[' (by decide), ne_of_digit hd openBraceC (by decide)⟩
      · exact ⟨by decide, by decide, by decide, by decide, by decide, by decide⟩
    rw [hj, hds]
    have hskip : skipWs (pre ++ (d :: ds ++ rest)) = d :: (ds ++ rest) := by
      rw [skipWs_append_of_ws _ hpre, List.cons_append]
      refine skipWs_eq_self ?_
      intro c hc
      injection hc with hc
      subst hc
      rcases hdprop with hd | rfl
      · exact digit_not_ws hd
      · decide
    simp only [parseVal, hskip]
    rw [if_neg hne.1, if_neg hne.2.1, if_neg hne.2.2.1, if_neg hne.2.2.2.1,
      if_neg hne.2.2.2.2.1, if_neg hne.2.2.2.2.2]
    rw [show d :: (ds ++ rest) = (d :: ds) ++ rest from rfl, ← hds,
      parseNumTok_intDec n hnd]
    rfl
  | str s =>
    have hj : sJson ind (Json.str s) =
        '"' :: ((s.map escChar).flatten ++ ['"']) := by
      simp [sJson, quoteStr]
    rw [hj]
    have hskip : skipWs (pre ++ ('"' :: ((s.map escChar).flatten ++ ['"']) ++ rest)) =
        '"' :: (((s.map escChar).flatten ++ ['"']) ++ rest) := by
      rw [skipWs_append_of_ws _ hpre, List.cons_append]
      exact skipWs_eq_self
        (by intro c hc; injection hc with hc; subst hc; decide)
    simp only [parseVal, hskip]
    rw [show ((s.map escChar).flatten ++ ['"']) ++ rest =
      (s.map escChar).flatten ++ ('"' :: rest) from by
        rw [List.append_assoc]; rfl]
    rw [parseStrBody_roundtrip]
    rfl
  | arr items =>
    cases items with
    | nil =>
      have hj : sJson ind (Json.arr []) = '[' :: [']'] := by simp [sJson]
      rw [hj]
      have hskip : skipWs (pre ++ ('[' :: [']'] ++ rest)) =
          '[' :: (']' :: rest) := by
        rw [skipWs_append_of_ws _ hpre, List.cons_append]
        refine skipWs_eq_self ?_
        intro c hc
        injection hc with hc
        subst hc
        decide
      simp only [parseVal, hskip]
      have hskip2 : skipWs (']' :: rest) = ']' :: rest :=
        skipWs_eq_self (by intro c hc; injection hc with hc; subst hc; decide)
      rw [hskip2]
      simp
    | cons x xs =>
      have happ : sJson ind (Json.arr (x :: xs)) ++ rest =
          '[' :: (('\n' :: (ind ++ jsonGap)) ++ (sJson (ind ++ jsonGap) x ++
            (sArrItems (ind ++ jsonGap) xs ++
              ('\n' :: (ind ++ (']' :: rest)))))) := by
        simp [sJson, List.append_assoc]
      have hlen : (sJson (ind ++ jsonGap) x).length +
          (sArrItems (ind ++ jsonGap) xs).length + 4 ≤
          (sJson ind (Json.arr (x :: xs))).length := by
        simp [sJson, List.length_append, List.length_cons]
        omega
      rw [happ]
      have hskip : skipWs (pre ++ ('[' :: (('\n' :: (ind ++ jsonGap)) ++
          (sJson (ind ++ jsonGap) x ++ (sArrItems (ind ++ jsonGap) xs ++
            ('\n' :: (ind ++ (']' :: rest)))))))) =
          '[' :: (('\n' :: (ind ++ jsonGap)) ++ (sJson (ind ++ jsonGap) x ++
            (sArrItems (ind ++ jsonGap) xs ++
              ('\n' :: (ind ++ (']' :: rest)))))) := by
        rw [skipWs_append_of_ws _ hpre]
        exact skipWs_eq_self
          (by intro c hc; injection hc with hc; subst hc; decide)
      simp only [parseVal, hskip]
      have hw : WsOnly ('\n' :: (ind ++ jsonGap)) :=
        wsOnly_cons (by decide) (indentOnly_wsOnly (indentOnly_gap hind))
      have hskipT : skipWs (('\n' :: (ind ++ jsonGap)) ++
          (sJson (ind ++ jsonGap) x ++ (sArrItems (ind ++ jsonGap) xs ++
            ('\n' :: (ind ++ (']' :: rest)))))) =
          sJson (ind ++ jsonGap) x ++ (sArrItems (ind ++ jsonGap) xs ++
            ('\n' :: (ind ++ (']' :: rest)))) :=
        skipWs_pre_val _ _ x _ hw
      rw [hskipT]
      obtain ⟨c0, u0, heq0, hhd0⟩ := sJson_cons (ind ++ jsonGap) x
      have hnotbr : (sJson (ind ++ jsonGap) x ++
          (sArrItems (ind ++ jsonGap) xs ++
            ('\n' :: (ind ++ (']' :: rest))))).head? ≠ some ']' := by
        rw [heq0, List.cons_append]
        intro hcon
        injection hcon with hcon
        exact (valHead_props hhd0).2.1 hcon
      rw [if_neg hnotbr]
      have harg := ih2 x xs ind [] rest hind (by intro c hc; cases hc)
        (by omega)
      rw [List.nil_append] at harg
      rw [harg]
      rfl
  | obj members =>
    cases members with
    | nil =>
      have hj : sJson ind (Json.obj []) = openBraceC :: [closeBraceC] := by
        simp [sJson]
      rw [hj]
      have hskip : skipWs (pre ++ (openBraceC :: [closeBraceC] ++ rest)) =
          openBraceC :: (closeBraceC :: rest) := by
        rw [skipWs_append_of_ws _ hpre, List.cons_append]
        refine skipWs_eq_self ?_
        intro c hc
        injection hc with hc
        subst hc
        decide
      have hskip2 : skipWs (closeBraceC :: rest) = closeBraceC :: rest :=
        skipWs_eq_self (by intro c hc; injection hc with hc; subst hc; decide)
      simp only [parseVal, hskip, hskip2, List.head?_cons]
      rw [if_neg (show ¬ openBraceC = 'n' from by decide),
        if_neg (show ¬ openBraceC = 't' from by decide),
        if_neg (show ¬ openBraceC = 'f' from by decide),
        if_neg (show ¬ openBraceC = '"' from by decide),
        if_neg (show ¬ openBraceC = '[' from by decide)]
      simp only [if_true]
      rfl
    | cons m ms =>
      obtain ⟨k, v⟩ := m
      have happ : sJson ind (Json.obj ((k, v) :: ms)) ++ rest =
          openBraceC :: (('\n' :: (ind ++ jsonGap)) ++
            (sObjMember (ind ++ jsonGap) (k, v) ++
              (sObjMembers (ind ++ jsonGap) ms ++
                ('\n' :: (ind ++ (closeBraceC :: rest)))))) := by
        simp [sJson, List.append_assoc]
      have hlen : (sObjMember (ind ++ jsonGap) (k, v)).length +
          (sObjMembers (ind ++ jsonGap) ms).length + 4 ≤
          (sJson ind (Json.obj ((k, v) :: ms))).length := by
        simp [sJson, List.length_append, List.length_cons]
        omega
      rw [happ]
      have hskip : skipWs (pre ++ (openBraceC :: (('\n' :: (ind ++ jsonGap)) ++
          (sObjMember (ind ++ jsonGap) (k, v) ++
            (sObjMembers (ind ++ jsonGap) ms ++
              ('\n' :: (ind ++ (closeBraceC :: rest)))))))) =
          openBraceC :: (('\n' :: (ind ++ jsonGap)) ++
            (sObjMember (ind ++ jsonGap) (k, v) ++
              (sObjMembers (ind ++ jsonGap) ms ++
                ('\n' :: (ind ++ (closeBraceC :: rest)))))) := by
        rw [skipWs_append_of_ws _ hpre]
        exact skipWs_eq_self
          (by intro c hc; injection hc with hc; subst hc; decide)
      simp only [parseVal, hskip]
      rw [if_neg (show ¬ openBraceC = 'n' from by decide),
        if_neg (show ¬ openBraceC = 't' from by decide),
        if_neg (show ¬ openBraceC = 'f' from by decide),
        if_neg (show ¬ openBraceC = '"' from by decide),
        if_neg (show ¬ openBraceC = '[' from by decide)]
      simp only [if_true]
      have hw : WsOnly ('\n' :: (ind ++ jsonGap)) :=
        wsOnly_cons (by decide) (indentOnly_wsOnly (indentOnly_gap hind))
      have hmemberhead : ∃ t, sObjMember (ind ++ jsonGap) (k, v) ++
          (sObjMembers (ind ++ jsonGap) ms ++
            ('\n' :: (ind ++ (closeBraceC :: rest)))) = '"' :: t := by
        refine ⟨((k.map escChar).flatten ++ ['"']) ++
          ((':' :: ' ' :: sJson (ind ++ jsonGap) v) ++
            (sObjMembers (ind ++ jsonGap) ms ++
              ('\n' :: (ind ++ (closeBraceC :: rest))))), ?_⟩
        simp [sObjMember, quoteStr, List.append_assoc]
      obtain ⟨t0, ht0⟩ := hmemberhead
      have hskipT : skipWs (('\n' :: (ind ++ jsonGap)) ++
          (sObjMember (ind ++ jsonGap) (k, v) ++
            (sObjMembers (ind ++ jsonGap) ms ++
              ('\n' :: (ind ++ (closeBraceC :: rest)))))) =
          sObjMember (ind ++ jsonGap) (k, v) ++
            (sObjMembers (ind ++ jsonGap) ms ++
              ('\n' :: (ind ++ (closeBraceC :: rest)))) := by
        rw [skipWs_append_of_ws _ hw, ht0]
        exact skipWs_eq_self
          (by intro c hc; injection hc with hc; subst hc; decide)
      rw [hskipT]
      have hnotbr : (sObjMember (ind ++ jsonGap) (k, v) ++
          (sObjMembers (ind ++ jsonGap) ms ++
            ('\n' :: (ind ++ (closeBraceC :: rest))))).head? ≠
            some closeBraceC := by
        rw [ht0]
        intro hcon
        injection hcon with hcon
        exact absurd hcon (by decide)
      rw [if_neg hnotbr]
      have harg := ih3 k v ms ind [] rest hind (by intro c hc; cases hc)
        (by omega)
      rw [List.nil_append] at harg
      rw [harg]
      rfl

/-- The step lemma for `parseItems`. -/
theorem parseItems_step (f : ℕ) (ih1 : RoundVal f) (ih2 : RoundItems f) :
    RoundItems (f + 1) := by
  intro x xs ind pre rest hind hpre hfuel
  have hndel : NumDelim (sArrItems (ind ++ jsonGap) xs ++
      ('\n' :: (ind ++ (']' :: rest)))) := by
    cases xs with
    | nil =>
      simp only [sArrItems, List.nil_append]
      exact numDelim_cons (by decide)
    | cons y ys =>
      simp only [sArrItems, List.cons_append]
      exact numDelim_cons (by decide)
  have hval := ih1 x (ind ++ jsonGap) pre
    (sArrItems (ind ++ jsonGap) xs ++ ('\n' :: (ind ++ (']' :: rest))))
    (indentOnly_gap hind) hpre hndel (by
      have := sJson_length_pos (ind ++ jsonGap) x
      omega)
  simp only [parseItems, hval]
  cases xs with
  | nil =>
    simp only [sArrItems, List.nil_append]
    have hsk : skipWs ('\n' :: (ind ++ (']' :: rest))) = ']' :: rest := by
      rw [show ('\n' :: (ind ++ (']' :: rest))) =
        ('\n' :: ind) ++ (']' :: rest) from rfl]
      rw [skipWs_append_of_ws _ (wsOnly_cons (by decide) (indentOnly_wsOnly hind))]
      exact skipWs_eq_self
        (by intro c hc; injection hc with hc; subst hc; decide)
    rw [hsk]
    simp only [List.head?_cons, if_true]
    rfl
  | cons y ys =>
    have hitems : sArrItems (ind ++ jsonGap) (y :: ys) ++
        ('\n' :: (ind ++ (']' :: rest))) =
        ',' :: ('\n' :: (((ind ++ jsonGap)) ++ (sJson (ind ++ jsonGap) y ++
          (sArrItems (ind ++ jsonGap) ys ++ ('\n' :: (ind ++ (']' :: rest))))))) := by
      simp [sArrItems, List.append_assoc]
    rw [hitems]
    have hsk : skipWs (',' :: ('\n' :: (((ind ++ jsonGap)) ++
        (sJson (ind ++ jsonGap) y ++ (sArrItems (ind ++ jsonGap) ys ++
          ('\n' :: (ind ++ (']' :: rest)))))))) =
        ',' :: ('\n' :: (((ind ++ jsonGap)) ++ (sJson (ind ++ jsonGap) y ++
          (sArrItems (ind ++ jsonGap) ys ++ ('\n' :: (ind ++ (']' :: rest))))))) :=
      skipWs_eq_self (by intro c hc; injection hc with hc; subst hc; decide)
    rw [hsk]
    simp only [List.head?_cons, if_false, if_true, List.tail_cons]
    have hlen2 : (sArrItems (ind ++ jsonGap) (y :: ys)).length =
        (sJson (ind ++ jsonGap) y).length +
        (sArrItems (ind ++ jsonGap) ys).length + (ind ++ jsonGap).length + 2 := by
      simp [sArrItems, List.length_append, List.length_cons]
      omega
    have hx1 := sJson_length_pos (ind ++ jsonGap) x
    have harg := ih2 y ys ind ('\n' :: (ind ++ jsonGap)) rest hind
      (wsOnly_cons (by decide) (indentOnly_wsOnly (indentOnly_gap hind)))
      (by omega)
    rw [show (('\n' :: (ind ++ jsonGap)) ++ (sJson (ind ++ jsonGap) y ++
      (sArrItems (ind ++ jsonGap) ys ++ ('\n' :: (ind ++ (']' :: rest)))))) =
      ('\n' :: (((ind ++ jsonGap)) ++ (sJson (ind ++ jsonGap) y ++
        (sArrItems (ind ++ jsonGap) ys ++ ('\n' :: (ind ++ (']' :: rest))))))) from
      by rw [List.cons_append]] at harg
    rw [harg]
    rfl

/-- The step lemma for `parseMembers`. -/
theorem parseMembers_step (f : ℕ) (ih1 : RoundVal f) (ih3 : RoundMembers f) :
    RoundMembers (f + 1) := by
  intro k v ms ind pre rest hind hpre hfuel
  have happ : sObjMember (ind ++ jsonGap) (k, v) ++
      (sObjMembers (ind ++ jsonGap) ms ++
        ('\n' :: (ind ++ (closeBraceC :: rest)))) =
      '"' :: ((k.map escChar).flatten ++ ('"' :: (':' :: (' ' ::
        (sJson (ind ++ jsonGap) v ++ (sObjMembers (ind ++ jsonGap) ms ++
          ('\n' :: (ind ++ (closeBraceC :: rest))))))))) := by
    simp [sObjMember, quoteStr, List.append_assoc]
  rw [happ]
  have hskip : skipWs (pre ++ ('"' :: ((k.map escChar).flatten ++ ('"' :: (':' :: (' ' ::
      (sJson (ind ++ jsonGap) v ++ (sObjMembers (ind ++ jsonGap) ms ++
        ('\n' :: (ind ++ (closeBraceC :: rest))))))))))) =
      '"' :: ((k.map escChar).flatten ++ ('"' :: (':' :: (' ' ::
        (sJson (ind ++ jsonGap) v ++ (sObjMembers (ind ++ jsonGap) ms ++
          ('\n' :: (ind ++ (closeBraceC :: rest))))))))) := by
    rw [skipWs_append_of_ws _ hpre]
    exact skipWs_eq_self
      (by intro c hc; injection hc with hc; subst hc; decide)
  simp only [parseMembers, hskip]
  rw [parseStrBody_roundtrip]
  have hskipR : skipWs (':' :: (' ' ::
      (sJson (ind ++ jsonGap) v ++ (sObjMembers (ind ++ jsonGap) ms ++
        ('\n' :: (ind ++ (closeBraceC :: rest))))))) =
      ':' :: (' ' :: (sJson (ind ++ jsonGap) v ++
        (sObjMembers (ind ++ jsonGap) ms ++
          ('\n' :: (ind ++ (closeBraceC :: rest)))))) :=
    skipWs_eq_self (by intro c hc; injection hc with hc; subst hc; decide)
  simp only [hskipR]
  have hndel : NumDelim (sObjMembers (ind ++ jsonGap) ms ++
      ('\n' :: (ind ++ (closeBraceC :: rest)))) := by
    cases ms with
    | nil =>
      simp only [sObjMembers, List.nil_append]
      exact numDelim_cons (by decide)
    | cons m2 ms2 =>
      simp only [sObjMembers, List.cons_append]
      exact numDelim_cons (by decide)
  have hmlen : (sObjMember (ind ++ jsonGap) (k, v)).length =
      (quoteStr k).length + (sJson (ind ++ jsonGap) v).length + 2 := by
    simp [sObjMember, List.length_append]
    omega
  have hqlen : 2 ≤ (quoteStr k).length := by
    simp only [quoteStr, List.length_cons, List.length_append, List.length_nil]
    omega
  have hval := ih1 v (ind ++ jsonGap) [' ']
    (sObjMembers (ind ++ jsonGap) ms ++ ('\n' :: (ind ++ (closeBraceC :: rest))))
    (indentOnly_gap hind) (by intro c hc; rcases List.mem_singleton.mp hc with rfl; decide)
    hndel (by omega)
  have hval' : parseVal f (' ' :: (sJson (ind ++ jsonGap) v ++
      (sObjMembers (ind ++ jsonGap) ms ++
        ('\n' :: (ind ++ (closeBraceC :: rest)))))) =
      some (v, sObjMembers (ind ++ jsonGap) ms ++
        ('\n' :: (ind ++ (closeBraceC :: rest)))) := hval
  simp only [hval']
  cases ms with
  | nil =>
    simp only [sObjMembers, List.nil_append]
    have hsk : skipWs ('\n' :: (ind ++ (closeBraceC :: rest))) =
        closeBraceC :: rest := by
      rw [show ('\n' :: (ind ++ (closeBraceC :: rest))) =
        ('\n' :: ind) ++ (closeBraceC :: rest) from rfl]
      rw [skipWs_append_of_ws _ (wsOnly_cons (by decide) (indentOnly_wsOnly hind))]
      exact skipWs_eq_self
        (by intro c hc; injection hc with hc; subst hc; decide)
    rw [hsk]
    simp only [List.head?_cons, if_true]
    rfl
  | cons m2 ms2 =>
    obtain ⟨k2, v2⟩ := m2
    have hmems : sObjMembers (ind ++ jsonGap) ((k2, v2) :: ms2) ++
        ('\n' :: (ind ++ (closeBraceC :: rest))) =
        ',' :: ('\n' :: (((ind ++ jsonGap)) ++
          (sObjMember (ind ++ jsonGap) (k2, v2) ++
            (sObjMembers (ind ++ jsonGap) ms2 ++
              ('\n' :: (ind ++ (closeBraceC :: rest))))))) := by
      simp [sObjMembers, List.append_assoc]
    rw [hmems]
    have hsk : skipWs (',' :: ('\n' :: (((ind ++ jsonGap)) ++
        (sObjMember (ind ++ jsonGap) (k2, v2) ++
          (sObjMembers (ind ++ jsonGap) ms2 ++
            ('\n' :: (ind ++ (closeBraceC :: rest)))))))) =
        ',' :: ('\n' :: (((ind ++ jsonGap)) ++
          (sObjMember (ind ++ jsonGap) (k2, v2) ++
            (sObjMembers (ind ++ jsonGap) ms2 ++
              ('\n' :: (ind ++ (closeBraceC :: rest))))))) :=
      skipWs_eq_self (by intro c hc; injection hc with hc; subst hc; decide)
    rw [hsk]
    simp only [List.head?_cons, if_false, if_true, List.tail_cons]
    have hlen2 : (sObjMembers (ind ++ jsonGap) ((k2, v2) :: ms2)).length =
        (sObjMember (ind ++ jsonGap) (k2, v2)).length +
        (sObjMembers (ind ++ jsonGap) ms2).length + (ind ++ jsonGap).length + 2 := by
      simp [sObjMembers, List.length_append, List.length_cons]
      omega
    have harg := ih3 k2 v2 ms2 ind ('\n' :: (ind ++ jsonGap)) rest hind
      (wsOnly_cons (by decide) (indentOnly_wsOnly (indentOnly_gap hind)))
      (by omega)
    rw [show (('\n' :: (ind ++ jsonGap)) ++
      (sObjMember (ind ++ jsonGap) (k2, v2) ++
        (sObjMembers (ind ++ jsonGap) ms2 ++
          ('\n' :: (ind ++ (closeBraceC :: rest)))))) =
      ('\n' :: (((ind ++ jsonGap)) ++ (sObjMember (ind ++ jsonGap) (k2, v2) ++
        (sObjMembers (ind ++ jsonGap) ms2 ++
          ('\n' :: (ind ++ (closeBraceC :: rest))))))) from
      by rw [List.cons_append]] at harg
    rw [harg]
    rfl

/-- The joint print–parse round trip, by induction on the fuel. -/
theorem parse_master : ∀ f : ℕ, RoundVal f ∧ RoundItems f ∧ RoundMembers f := by
  intro f
  induction f with
  | zero =>
    refine ⟨?_, ?_, ?_⟩
    · intro j ind pre rest _ _ _ hfuel
      omega
    · intro x xs ind pre rest _ _ hfuel
      omega
    · intro k v ms ind pre rest _ _ hfuel
      omega
  | succ f ih =>
    exact ⟨parseVal_step f ih.1 ih.2.1 ih.2.2,
      parseItems_step f ih.1 ih.2.1,
      parseMembers_step f ih.1 ih.2.2⟩

/-- `JSON.parse` inverts `JSON.stringify(·, null, 2)`. -/
theorem parse_stringify (j : Json) : parse (stringify j) = some j := by
  have h := (parse_master (2 * (stringify j).length + 2)).1 j [] [] []
    (by intro c hc; cases hc) (by intro c hc; cases hc)
    (by intro c hc; cases hc) (by
      show 2 * (sJson [] j).length < 2 * (stringify j).length + 2
      unfold stringify
      omega)
  rw [List.nil_append, List.append_nil] at h
  unfold parse
  rw [show stringify j = sJson [] j from rfl] at h ⊢
  rw [h]
  rfl


/-- Claim C4, counterexample: the input text `5` is well-formed JSON but
a corrupt connection list (not a list at all), yet `importConnections`
does not leave the existing state untouched: the parsed number is
installed wholesale through the unchecked cast. -/
theorem importConnections_nonlist_counterexample :
    parse ('5' :: []) = some (Json.num 5) ∧
    importConnections ('5' :: []) ⟨connListToJson []⟩ = ⟨Json.num 5⟩ ∧
    ¬ importConnections ('5' :: []) ⟨connListToJson []⟩ =
        ⟨connListToJson []⟩ := by
  refine ⟨rfl, rfl, ?_⟩
  intro h
  have h2 : Json.num 5 = connListToJson [] := congrArg ConnectionStore.connections h
  exact Json.noConfusion h2

/-- Claim C4 (amended): `importConnections` rejects exactly the inputs on
which `JSON.parse` throws a `SyntaxError` — on such input the thrown
error is caught and the store is returned unchanged; on any
syntactically valid JSON text (a connection list or not) the parsed
value replaces the stored list wholesale. -/
theorem importConnections_malformed_amended (s : List Char)
    (st : ConnectionStore) :
    (parse s = none → importConnections s st = st) ∧
    (∀ j : Json, parse s = some j → importConnections s st = ⟨j⟩) := by
  constructor
  · intro h
    unfold importConnections
    rw [h]
  · intro j h
    unfold importConnections
    rw [h]

/-- Witness for C4 (amended), at the malformed text `[` and the
well-formed text `[]`. -/
theorem importConnections_malformed_amended_witness :
    importConnections ('[' :: []) ⟨Json.num 7⟩ = ⟨Json.num 7⟩ ∧
    importConnections ('[' :: (']' :: [])) ⟨Json.num 7⟩ = ⟨Json.arr []⟩ :=
  ⟨(importConnections_malformed_amended ('[' :: []) ⟨Json.num 7⟩).1 rfl,
   (importConnections_malformed_amended ('[' :: (']' :: []))
     ⟨Json.num 7⟩).2 (Json.arr []) rfl⟩

/-- Claim C5: importing a serialized connection list, exporting it via
`exportConnections`, and re-importing the exported text reproduces the
first imported list (import–export–import round trip). -/
theorem import_export_import_roundtrip (cs : List ConnectionLine)
    (st : ConnectionStore) :
    importConnections (stringify (connListToJson cs)) st =
      ⟨connListToJson cs⟩ ∧
    importConnections
        (exportConnections (importConnections (stringify (connListToJson cs)) st))
        (importConnections (stringify (connListToJson cs)) st) =
      importConnections (stringify (connListToJson cs)) st := by
  have h1 : importConnections (stringify (connListToJson cs)) st =
      ⟨connListToJson cs⟩ := by
    unfold importConnections
    rw [parse_stringify]
  refine ⟨h1, ?_⟩
  rw [h1]
  unfold exportConnections importConnections
  rw [parse_stringify]

end CodeViz
